import Mathlib

/-!
Verification of the core components of the aiagent repository: the qwen3
model adapter (Hermes-style XML tool-call recovery, think-tag stripping,
hallucination filtering), the streaming Goose content filter, and the
LangGraph agent orchestration (interpreter, critic loop, answer node).

Text is modelled as `List Char`; Python regular-expression scans are
modelled by explicit leftmost-match scanners that mirror the engine's
behaviour on the patterns used by the source (all of which are of the
shape `open NAME > lazy-body close` with greedy `[^>]+` names).
-/

namespace Aiagent

/-- Whitespace characters removed by Python str.strip (ASCII subset). -/
def pySpace (c : Char) : Bool :=
  c = ' ' || c = '\t' || c = '\n' || c = '\r' || c = '\x0b' || c = '\x0c'

/-- Left whitespace strip. -/
def stripL (s : List Char) : List Char := s.dropWhile pySpace

/-- Right whitespace strip. -/
def stripR (s : List Char) : List Char := (s.reverse.dropWhile pySpace).reverse

/-- Python str.strip modelled on char lists. -/
def pyStrip (s : List Char) : List Char := stripR (stripL s)

/-- Boolean prefix test on char lists (str.startswith / regex literal match). -/
def leadsWith : List Char → List Char → Bool
  | [], _ => true
  | _ :: _, [] => false
  | p :: ps, c :: cs => p = c && leadsWith ps cs

/-- Boolean substring test on char lists. -/
def hasSub (pat : List Char) : List Char → Bool
  | [] => leadsWith pat []
  | c :: cs => leadsWith pat (c :: cs) || hasSub pat cs

/-- Split a string at the first occurrence of `pat`, returning the part
before the occurrence and the part after it. -/
def splitFirst (pat : List Char) : List Char → Option (List Char × List Char)
  | [] => if leadsWith pat [] then some ([], []) else none
  | c :: cs =>
    if leadsWith pat (c :: cs) then some ([], (c :: cs).drop pat.length)
    else
      match splitFirst pat cs with
      | some (b, a) => some (c :: b, a)
      | none => none

/-! ### qwen3 adapter (src/images/gateway/adapters/qwen3.py)

The three regexes `_THINK_BLOCK`, `_FUNCTION_BLOCK` and `_PARAMETER` all
have the form `open …literal…` followed by a lazy `(.*?)` group and a
literal closer; `_FUNCTION_BLOCK`/`_PARAMETER` additionally capture a
greedy `([^>]+)` name before a literal `>`.  On such patterns the regex
engine finds, at each position, a match exactly when the literal opener
starts there, the next `>` is preceded by at least one non-`>` character,
and the closer occurs later; the lazy group ends at the first closer.
`matchFn`/`matchPar`/`matchTh` mirror that head-match attempt, and the
`scan…Go` functions step through the text mirroring `finditer`/`sub`:
advance one character on failure, resume after the match on success. -/
def openFn : List Char := "<function=".toList

def closeFn : List Char := "</function>".toList

def openPar : List Char := "<parameter=".toList

def closePar : List Char := "</parameter>".toList

def openTh : List Char := "<think>".toList

def closeTh : List Char := "</think>".toList

/-- Head-match attempt of `_FUNCTION_BLOCK`; returns group 1 (the name),
group 2 (the body) and the total length of the matched span. -/
def matchFn (s : List Char) : Option (List Char × List Char × Nat) :=
  if leadsWith openFn s then
    match splitFirst ['>'] (s.drop openFn.length) with
    | some (name, rest2) =>
      if name = [] then none
      else
        match splitFirst closeFn rest2 with
        | some (body, _) =>
          some (name, body, openFn.length + name.length + 1 + body.length + closeFn.length)
        | none => none
    | none => none
  else none

/-- Head-match attempt of `_PARAMETER`. -/
def matchPar (s : List Char) : Option (List Char × List Char × Nat) :=
  if leadsWith openPar s then
    match splitFirst ['>'] (s.drop openPar.length) with
    | some (key, rest2) =>
      if key = [] then none
      else
        match splitFirst closePar rest2 with
        | some (value, _) =>
          some (key, value, openPar.length + key.length + 1 + value.length + closePar.length)
        | none => none
    | none => none
  else none

/-- Head-match attempt of `_THINK_BLOCK`; returns the matched length. -/
def matchTh (s : List Char) : Option Nat :=
  if leadsWith openTh s then
    match splitFirst closeTh (s.drop openTh.length) with
    | some (body, _) => some (openTh.length + body.length + closeTh.length)
    | none => none
  else none

/-- Scan for parameter blocks mirroring `_PARAMETER.finditer` over a function
body; keys are trimmed (`param.group(1).strip()`), values taken verbatim.
The first argument counts characters of a matched span still to be skipped. -/
def scanParGo : Nat → List Char → List (List Char × List Char)
  | _, [] => []
  | k + 1, _ :: cs => scanParGo k cs
  | 0, c :: cs =>
    match matchPar (c :: cs) with
    | some (key, value, len) => (pyStrip key, value) :: scanParGo (len - 1) cs
    | none => scanParGo 0 cs

/-- Python dict insertion: update in place when the key exists, else append. -/
def dictInsert (d : List (List Char × List Char)) (k v : List Char) :
    List (List Char × List Char) :=
  match d with
  | [] => [(k, v)]
  | (k0, v0) :: ds => if k0 = k then (k0, v) :: ds else (k0, v0) :: dictInsert ds k v

/-- The Python dict built by inserting the pairs left to right. -/
def pyDict (ps : List (List Char × List Char)) : List (List Char × List Char) :=
  ps.foldl (fun d p => dictInsert d p.1 p.2) []

/-- Scan for function blocks mirroring `_FUNCTION_BLOCK.finditer` together
with `_FUNCTION_BLOCK.sub("", text)`: returns the parsed calls (name
stripped, arguments dict) in source order, and the text with every matched
span removed. -/
def scanFnGo : Nat → List Char →
    List (List Char × List (List Char × List Char)) × List Char
  | _, [] => ([], [])
  | k + 1, _ :: cs => scanFnGo k cs
  | 0, c :: cs =>
    match matchFn (c :: cs) with
    | some (name, body, len) =>
      let r := scanFnGo (len - 1) cs
      ((pyStrip name, pyDict (scanParGo 0 body)) :: r.1, r.2)
    | none =>
      let r := scanFnGo 0 cs
      (r.1, c :: r.2)

/-- Scan removing `<think>…</think>` spans, mirroring `_THINK_BLOCK.sub`. -/
def scanThGo : Nat → List Char → List Char
  | _, [] => []
  | k + 1, _ :: cs => scanThGo k cs
  | 0, c :: cs =>
    match matchTh (c :: cs) with
    | some len => scanThGo (len - 1) cs
    | none => c :: scanThGo 0 cs

/-- Model of `_parse_xml_tool_calls` (qwen3.py lines 37-53). -/
def _parse_xml_tool_calls (text : List Char) :
    List (List Char × List (List Char × List Char)) × List Char :=
  let r := scanFnGo 0 text
  (r.1, pyStrip r.2)

/-- Model of `_strip_think_tags` (qwen3.py lines 56-58). -/
def _strip_think_tags (text : List Char) : List Char :=
  pyStrip (scanThGo 0 text)

/-- A structured tool-call entry of an Ollama message: an optional `id`
entry and a `function` entry holding name and raw arguments. -/
structure ProxyCall where
  id : Option (List Char)
  function : List Char × List (List Char × List Char)
deriving DecidableEq, Repr

/-- The `content` and `tool_calls` entries of an Ollama chat message dict
(`none` models an absent or None entry), plus the remaining entries,
opaque to the adapter and carried through the shallow copy unchanged. -/
structure Msg where
  content : Option (List Char)
  tool_calls : Option (List ProxyCall)
  rest : List (List Char × List Char)
deriving DecidableEq, Repr

/-- Modelled from the spec: `ModelAdapter._filter_hallucinated` is defined in
`adapters/base.py`, which is not part of the source tree (only its unit
tests are). Spec section 4.3: return only the calls whose name is a member
of the valid-name set, preserving relative order; if the valid-name set is
empty, filtering is a no-op. The tests in src/tests/test_adapters.py
(`test_filter_hallucinated_removes_bad_names`,
`test_filter_hallucinated_noop_without_valid_names`) assert exactly these
two behaviours. -/
def _filter_hallucinated (calls : List ProxyCall) (valid : List (List Char)) :
    List ProxyCall :=
  if valid = [] then calls
  else calls.filter (fun c => c.function.1 ∈ valid)

/-- Model of `Qwen3Adapter.normalize_tool_calls` (qwen3.py lines 64-109),
split so that allocation is observable: `some result` when the source
builds and returns a fresh `dict(ollama_msg)` copy, `none` when it falls
through to `return ollama_msg` (the input object itself). -/
def normalize_tool_calls_patch (msg : Msg) (valid : List (List Char)) :
    Option Msg :=
  let content0 := msg.content.getD []
  let tcs := msg.tool_calls.getD []
  if tcs ≠ [] then
    some { msg with tool_calls := some (_filter_hallucinated tcs valid),
                    content := some (_strip_think_tags content0) }
  else if content0 ≠ [] then
    let content1 := _strip_think_tags content0
    let parsed := _parse_xml_tool_calls content1
    let recovered := parsed.1.filterMap
      (fun c => if c.1 ∈ valid then some ⟨none, c⟩ else none)
    if parsed.1 ≠ [] ∧ recovered ≠ [] then
      some { msg with tool_calls := some recovered, content := some parsed.2 }
    else if content1 ≠ content0 then
      some { msg with content := some content1 }
    else none
  else none

/-- The message value returned by `normalize_tool_calls`. -/
def normalize_tool_calls (msg : Msg) (valid : List (List Char)) : Msg :=
  (normalize_tool_calls_patch msg valid).getD msg

/-- A LangChain tool-call entry on the agent path (`name`, `args`, `id`). -/
structure AgentCall where
  name : List Char
  args : List (List Char × List Char)
  id : List Char
deriving DecidableEq, Repr

/-- The parts of a LangChain AIMessage the adapter reads and writes. -/
structure AIMessage where
  content : List Char
  tool_calls : List AgentCall
deriving DecidableEq, Repr

/-- The id-assigning loop of `normalize_ai_message`: each recovered call
gets `recovered_{len(tool_calls)}`, i.e. its index in the list. -/
def recoverWithIds (i : Nat) :
    List (List Char × List (List Char × List Char)) → List AgentCall
  | [] => []
  | c :: cs =>
    ⟨c.1, c.2, "recovered_".toList ++ (Nat.repr i).toList⟩ :: recoverWithIds (i + 1) cs

/-- Model of `Qwen3Adapter.normalize_ai_message` (qwen3.py lines 111-146). -/
def normalize_ai_message (message : AIMessage) : AIMessage :=
  let content0 := message.content
  if message.tool_calls ≠ [] then
    let stripped := _strip_think_tags content0
    if stripped ≠ content0 then ⟨stripped, message.tool_calls⟩ else message
  else if content0 = [] then message
  else
    let content1 := _strip_think_tags content0
    let parsed := _parse_xml_tool_calls content1
    if parsed.1 = [] then
      if content1 ≠ content0 then ⟨content1, []⟩ else message
    else
      ⟨parsed.2, recoverWithIds 0 parsed.1⟩

/-- Heap of message dicts; an address is an index into the heap. The source
mutates no existing dict: `dict(ollama_msg)` allocates a fresh shallow copy
(modelled by appending to the heap) and only that copy is written to. -/
def normalize_heap (h : List Msg) (a : Nat) (valid : List (List Char)) :
    List Msg × Nat :=
  match h.get? a with
  | none => (h, a)
  | some msg =>
    match normalize_tool_calls_patch msg valid with
    | some r => (h ++ [r], h.length)
    | none => (h, a)

/-! ### Well-formed Hermes XML content

A message content containing well-formed `<function=NAME>…</function>`
blocks (each with zero or more `<parameter=KEY>VALUE</parameter>` children)
is described structurally and rendered to text; the claims about recovery
are proved for every rendering. -/
/-- One `<parameter=KEY>VALUE</parameter>` child. -/
structure XmlParam where
  key : List Char
  value : List Char
deriving DecidableEq, Repr

/-- One `<function=NAME>…</function>` block. -/
structure XmlBlock where
  name : List Char
  params : List XmlParam
deriving DecidableEq, Repr

def renderParam (p : XmlParam) : List Char :=
  openPar ++ p.key ++ '>' :: (p.value ++ closePar)

/-- The body of a block: its parameter children, concatenated. -/
def bodyOf : List XmlParam → List Char
  | [] => []
  | p :: ps => renderParam p ++ bodyOf ps

def renderBlock (b : XmlBlock) : List Char :=
  openFn ++ b.name ++ '>' :: (bodyOf b.params ++ closeFn)

/-- Content text: interleaved prose and blocks, then trailing prose. -/
def renderContent : List (List Char × XmlBlock) → List Char → List Char
  | [], last => last
  | (p, b) :: segs, last => p ++ (renderBlock b ++ renderContent segs last)

/-- The prose of the content with every block deleted. -/
def proseConcat : List (List Char × XmlBlock) → List Char → List Char
  | [], last => last
  | (p, _) :: segs, last => p ++ proseConcat segs last

/-- Well-formedness of a parameter: non-empty `>`-free key (the greedy
`([^>]+)` group) and a value free of the closer the lazy group stops at. -/
def WFparam (p : XmlParam) : Prop :=
  p.key ≠ [] ∧ '>' ∉ p.key ∧ hasSub closePar p.value = false

/-- Well-formedness of a block: non-empty `>`-free name and a body free of
the function closer. -/
def WFblock (b : XmlBlock) : Prop :=
  b.name ≠ [] ∧ '>' ∉ b.name ∧ hasSub closeFn (bodyOf b.params) = false ∧
    ∀ p ∈ b.params, WFparam p

/-- Well-formedness of the interleaving: no prose piece contains the
function opener (otherwise the scan could start a match inside prose). -/
def WFsegs (segs : List (List Char × XmlBlock)) : Prop :=
  ∀ s ∈ segs, hasSub openFn s.1 = false ∧ WFblock s.2

instance : DecidablePred WFparam := fun p => by unfold WFparam; infer_instance

instance : DecidablePred WFblock := fun b => by unfold WFblock; infer_instance

instance : DecidablePred WFsegs := fun s => by unfold WFsegs; infer_instance

/-! ### Streaming content filter (src/images/gateway/contentfilters.py)

`GooseFilter` buffers up to the last newline, transforms complete lines and
flushes the remaining partial line on `flush`. The line rewrite applied
outside fences (the `_HORIZONTAL_RULE` / `_BOLD` / `_BOLD_UNDER` /
`_ITALIC` / `_ITALIC_UNDER` substitutions, lines 102-112) is a pure
function of the line; the claims considered here hold for every such
rewrite, so it is a parameter `markup` of the model and every theorem
quantifies over it. -/
/-- GooseFilter instance state: partial-line buffer and fence flag. -/
structure GF where
  buffer : List Char
  inFence : Bool
deriving DecidableEq, Repr

def fenceMark : List Char := "```".toList

/-- Model of `GooseFilter._transform_line`. -/
def transformLine (markup : List Char → List Char) (f : Bool) (line : List Char) :
    List Char × Bool :=
  if leadsWith fenceMark (pyStrip line) then (line, !f)
  else if f then (line, f)
  else (markup line, f)

/-- Python `str.split("\n")`. -/
def splitLines : List Char → List (List Char)
  | [] => [[]]
  | c :: cs =>
    if c = '\n' then [] :: splitLines cs
    else
      match splitLines cs with
      | l :: ls => (c :: l) :: ls
      | [] => [[c]]

/-- Python `"\n".join`. -/
def joinNl : List (List Char) → List Char
  | [] => []
  | [l] => l
  | l :: l2 :: ls => l ++ '\n' :: joinNl (l2 :: ls)

/-- The loop of `GooseFilter._transform`: transform each line, threading
the fence state, except that a final empty line (the split artifact of a
trailing newline) is appended unchanged. -/
def transLinesLast (markup : List Char → List Char) (f : Bool) :
    List (List Char) → List (List Char) × Bool
  | [] => ([], f)
  | [l] =>
    if l = [] then ([l], f)
    else ([(transformLine markup f l).1], (transformLine markup f l).2)
  | l :: l2 :: ls =>
    ((transformLine markup f l).1 ::
        (transLinesLast markup (transformLine markup f l).2 (l2 :: ls)).1,
      (transLinesLast markup (transformLine markup f l).2 (l2 :: ls)).2)

/-- Uniform variant (no last-line special case) used to state composition. -/
def transLines (markup : List Char → List Char) (f : Bool) :
    List (List Char) → List (List Char) × Bool
  | [] => ([], f)
  | l :: ls =>
    ((transformLine markup f l).1 :: (transLines markup (transformLine markup f l).2 ls).1,
      (transLines markup (transformLine markup f l).2 ls).2)

/-- Model of `GooseFilter._transform` (returns text and fence state). -/
def gtransform (markup : List Char → List Char) (f : Bool) (text : List Char) :
    List Char × Bool :=
  (joinNl (transLinesLast markup f (splitLines text)).1,
    (transLinesLast markup f (splitLines text)).2)

/-- Split after the last newline (`buffer.rfind("\n")`): the part up to and
including the last newline, and the newline-free remainder. -/
def splitLastNl : List Char → Option (List Char × List Char)
  | [] => none
  | c :: cs =>
    match splitLastNl cs with
    | some (r, rest) => some (c :: r, rest)
    | none => if c = '\n' then some ([c], cs) else none

/-- Model of `GooseFilter.feed`. -/
def feed (markup : List Char → List Char) (s : GF) (text : List Char) :
    List Char × GF :=
  match splitLastNl (s.buffer ++ text) with
  | none => ([], ⟨s.buffer ++ text, s.inFence⟩)
  | some (ready, rest) =>
    ((gtransform markup s.inFence ready).1, ⟨rest, (gtransform markup s.inFence ready).2⟩)

/-- Model of `GooseFilter.flush`. -/
def gfFlush (markup : List Char → List Char) (s : GF) : List Char × GF :=
  if s.buffer = [] then ([], s)
  else
    ((gtransform markup s.inFence s.buffer).1, ⟨[], (gtransform markup s.inFence s.buffer).2⟩)

/-- Feed a list of chunks in order, concatenating the emitted text. -/
def feedAll (markup : List Char → List Char) (s : GF) :
    List (List Char) → List Char × GF
  | [] => ([], s)
  | c :: cs =>
    ((feed markup s c).1 ++ (feedAll markup (feed markup s c).2 cs).1,
      (feedAll markup (feed markup s c).2 cs).2)

/-- Everything a filter in state `s` will ever emit for tail input `t`:
one feed followed by the final flush. -/
def totalOut (markup : List Char → List Char) (s : GF) (t : List Char) : List Char :=
  (feed markup s t).1 ++ (gfFlush markup (feed markup s t).2).1

/-! ### Agent nodes (src/images/agent)

The completion client returns text that the nodes decode with
`json.loads` (after optional code-fence removal). The decoding outcome is
modelled as `Except Unit Json`: `.error ()` for a decode failure
(`json.JSONDecodeError`), `.ok v` for the decoded value. The node bodies
after decoding are translated statement by statement, including which
exception types the `except` clauses catch. -/
/-- A decoded JSON value (the result of a successful `json.loads`).
Objects are key-unique association lists, numbers are rationals. -/
inductive Json where
  | null
  | bool (b : Bool)
  | num (q : ℚ)
  | str (s : String)
  | arr (elems : List Json)
  | obj (fields : List (String × Json))

/-- The Python exception kinds the modelled node code can raise. -/
inductive PyExn where
  | typeError
  | valueError
  | attributeError
deriving DecidableEq, Repr

/-- Python truthiness of a decoded JSON value. -/
def pyTruthy : Json → Bool
  | .null => false
  | .bool b => b
  | .num q => decide (q ≠ 0)
  | .str s => decide (s ≠ "")
  | .arr l => !l.isEmpty
  | .obj f => !f.isEmpty

/-- Python `dict.get(k)` (None when absent) on a decoded object. -/
def pyLookup (fields : List (String × Json)) (k : String) : Option Json :=
  (fields.find? (fun p => p.1 == k)).map Prod.snd

/-- Decimal digit string value. -/
def digitsVal (l : List Char) : ℚ :=
  l.foldl (fun a c => a * 10 + ((c.toNat - 48 : ℕ) : ℚ)) 0

def allDigits (l : List Char) : Bool := l.all Char.isDigit

/-- Python `float(s)` on a string, modelled for plain decimal literals
(optional sign, digits, optional fractional part); exponent forms and
specials are outside the behaviours the claims exercise, and a
non-literal string yields `none` (ValueError), as in the source. -/
def pyFloatUnsigned (l : List Char) : Option ℚ :=
  match splitFirst ['.'] l with
  | none => if l ≠ [] ∧ allDigits l then some (digitsVal l) else none
  | some (ip, fp) =>
    if (ip ≠ [] ∨ fp ≠ []) ∧ allDigits ip ∧ allDigits fp ∧ '.' ∉ fp then
      some (digitsVal ip + digitsVal fp / (10 ^ fp.length : ℚ))
    else none

def pyFloatOfStr (s : String) : Option ℚ :=
  match pyStrip s.toList with
  | '-' :: rest => (pyFloatUnsigned rest).map (fun q => -q)
  | '+' :: rest => pyFloatUnsigned rest
  | l => pyFloatUnsigned l

/-- Python `float()` applied to a decoded JSON value: numbers and booleans
convert, strings parse or raise ValueError, every other type raises
TypeError. -/
def pyFloatJ : Json → Except PyExn ℚ
  | .num q => .ok q
  | .bool b => .ok (if b then 1 else 0)
  | .str s =>
    match pyFloatOfStr s with
    | some q => .ok q
    | none => .error .valueError
  | _ => .error .typeError

/-- The interpreter node's classification fields; values are decoded JSON
because the source stores whatever the model returned, unvalidated. -/
structure Interp where
  intent_type : Json
  confidence : ℚ
  entities : Json
  inferred_url : Json

/-- Model of the response handling of `interpreter_node` (interpreter.py
lines 46-72). Only `json.JSONDecodeError` and `ValueError` are caught and
resolved to the default `(question, 0.5, [], null)`; a TypeError raised by
`float(...)` on a non-numeric type, or an AttributeError raised by `.get`
on a decoded non-object, propagates. -/
def interpreter_parse (resp : Except Unit Json) : Except PyExn Interp :=
  match resp with
  | .error _ => .ok ⟨.str "question", 1/2, .arr [], .null⟩
  | .ok (.obj kvs) =>
    match pyFloatJ ((pyLookup kvs "confidence").getD (.num (1/2))) with
    | .ok conf =>
      .ok ⟨(pyLookup kvs "intent").getD (.str "question"), conf,
        (pyLookup kvs "entities").getD (.arr []),
        (pyLookup kvs "inferred_url").getD .null⟩
    | .error .valueError => .ok ⟨.str "question", 1/2, .arr [], .null⟩
    | .error e => .error e
  | .ok _ => .error .attributeError

/-- Parsed critic verdict: the raw `is_approved` value, the score and the
assembled feedback string. -/
structure CritVerdict where
  is_approved : Json
  score : ℚ
  feedback : String

/-- Python `sep.join(x)` on a decoded JSON value: a list of strings joins;
anything else raises TypeError (iterating a decoded object would yield its
keys, a case outside the behaviours used here and modelled as TypeError). -/
def pyJoin (sep : String) : Json → Except PyExn String
  | .arr elems =>
    match elems.mapM (fun e => match e with | .str s => some s | _ => none) with
    | some l => .ok (String.intercalate sep l)
    | none => .error .typeError
  | _ => .error .typeError

/-- Model of the response parsing of `critic_node` (critic.py lines
76-101): a JSON decode failure or a ValueError from `float(score)`
defaults to approved (score 0.7, empty feedback); otherwise the verdict is
read with defaults `is_approved=True`, `score=0.8`, and the feedback is
assembled from `issues` and `suggestions` when not approved. -/
def critic_parse (resp : Except Unit Json) : Except PyExn CritVerdict :=
  match resp with
  | .error _ => .ok ⟨.bool true, 7/10, ""⟩
  | .ok (.obj kvs) =>
    match pyFloatJ ((pyLookup kvs "score").getD (.num (4/5))) with
    | .error .valueError => .ok ⟨.bool true, 7/10, ""⟩
    | .error e => .error e
    | .ok score =>
      if pyTruthy ((pyLookup kvs "is_approved").getD (.bool true)) then
        .ok ⟨(pyLookup kvs "is_approved").getD (.bool true), score, ""⟩
      else
        match (if pyTruthy ((pyLookup kvs "issues").getD (.arr [])) then
            (pyJoin "; " ((pyLookup kvs "issues").getD (.arr []))).map
              (fun j => "Issues: " ++ j ++ "\n")
          else .ok "") with
        | .error e => .error e
        | .ok fb1 =>
          match (if pyTruthy ((pyLookup kvs "suggestions").getD (.arr [])) then
              (pyJoin "; " ((pyLookup kvs "suggestions").getD (.arr []))).map
                (fun j => "Suggestions: " ++ j)
            else .ok "") with
          | .error e => .error e
          | .ok fb2 =>
            .ok ⟨(pyLookup kvs "is_approved").getD (.bool true), score, fb1 ++ fb2⟩
  | .ok _ => .error .attributeError

/-- One research result row (`{source, content, score, url}`). -/
structure RRes where
  source : String := ""
  content : String := ""
  score : ℚ := 0
  url : String := ""
deriving DecidableEq, Repr

/-- The graph-state fields used by the critique loop and the answer node
(graph.py `AgentState`). Absent fields are modelled by the same defaults
the source supplies at each `state.get(key, default)`. `critique_score`
is an `Option` because the auto-approval patch does not set it. -/
structure AgentState where
  message : String := ""
  research_summary : String := ""
  research_results : List RRes := []
  ingestion_status : Option String := none
  draft_response : String := ""
  sources : List String := []
  is_approved : Json := .bool false
  critique_count : Nat := 0
  critique_score : Option ℚ := none
  critique_feedback : String := ""

/-- The partial state returned by `critic_node`. -/
structure CriticPatch where
  is_approved : Json
  critique_count : Nat
  critique_score : Option ℚ
  critique_feedback : String

/-- Model of `critic_node` (critic.py lines 39-108): increment the count;
at the bound return the auto-approval patch without invoking the model;
otherwise invoke the model (`oracle` is the decoded completion response
for the state's prompt) and parse. The Bool records whether the model was
invoked. -/
def critic_node (oracle : AgentState → Except Unit Json) (st : AgentState) :
    Except PyExn (CriticPatch × Bool) :=
  if st.critique_count + 1 ≥ 3 then
    .ok (⟨.bool true, st.critique_count + 1, none,
      "Auto-approved after maximum critique attempts."⟩, false)
  else
    match critic_parse (oracle st) with
    | .ok v => .ok (⟨v.is_approved, st.critique_count + 1, some v.score, v.feedback⟩, true)
    | .error e => .error e

/-- LangGraph partial-state merge of a critic patch. -/
def applyCritic (st : AgentState) (p : CriticPatch) : AgentState :=
  { st with
    is_approved := p.is_approved
    critique_count := p.critique_count
    critique_score := if p.critique_score.isSome then p.critique_score else st.critique_score
    critique_feedback := p.critique_feedback }

/-- Model of `route_after_critic` (graph.py lines 75-84). -/
def route_after_critic (st : AgentState) : String :=
  if pyTruthy st.is_approved || st.critique_count ≥ 3 then "answer" else "revise"

/-- Model of `revise_node` (graph.py lines 98-112), merged into the state. -/
def revise_node (st : AgentState) : AgentState :=
  { st with research_summary :=
      st.research_summary ++ "\n\nPrevious draft issues: " ++ st.critique_feedback }

/-- Model of `_extract_sources` (synthesis.py lines 68-75). The source
collects URLs in a Python set and truncates to 5; set iteration order is
unspecified, modelled here as first-occurrence order. -/
def _extract_sources (results : List RRes) : List String :=
  (((results.map (fun r => r.url)).filter (fun u => u ≠ "")).dedup).take 5

/-- Model of `synthesis_node` (synthesis.py lines 28-65) merged into the
state; `gen` is the completion model producing the draft for the prompt
built from the state. -/
def synthesis_node (gen : AgentState → String) (st : AgentState) : AgentState :=
  { st with
    draft_response := gen st
    sources := _extract_sources st.research_results }

/-- Model of `answer_node` (graph.py lines 115-133): the final response and
the actions-taken audit list. -/
def answer_node (st : AgentState) : String × List String :=
  (st.draft_response,
    (if st.ingestion_status = some "success" then ["crawl"] else []) ++
    (if st.research_results ≠ [] then ["research"] else []) ++
    (if st.critique_count > 1 then ["revise"] else []) ++ ["synthesize"])

/-- Run the `critic → (revise → synthesis → critic)*` cycle of the graph
from a state at critic entry until `route_after_critic` picks `answer`.
Returns the state at answer entry, the number of critic-node invocations
and the number of critic-model invocations; `none` when the fuel is
exhausted before `answer` is reached. -/
def runLoop (oracle : AgentState → Except Unit Json) (gen : AgentState → String) :
    Nat → AgentState → Option (Except PyExn (AgentState × Nat × Nat))
  | 0, _ => none
  | fuel + 1, st =>
    match critic_node oracle st with
    | .error e => some (.error e)
    | .ok (patch, invoked) =>
      if route_after_critic (applyCritic st patch) = "answer" then
        some (.ok (applyCritic st patch, 1, if invoked then 1 else 0))
      else
        match runLoop oracle gen fuel
            (synthesis_node gen (revise_node (applyCritic st patch))) with
        | some (.ok (fin, c, mi)) =>
          some (.ok (fin, c + 1, mi + (if invoked then 1 else 0)))
        | r => r

/-! ### Concrete instances: counterexamples and witnesses -/
def c1segs : List (List Char × XmlBlock) :=
  [("Say: ".toList, ⟨" web_search ".toList, [⟨" query ".toList, "py docs".toList⟩]⟩),
   ("then ".toList, ⟨"read_file".toList, []⟩)]

def c1last : List Char := " done".toList

def c1msg : Msg :=
  ⟨some (renderContent c1segs c1last), none, [("role".toList, "assistant".toList)]⟩

def c1valid : List (List Char) := ["web_search".toList, "read_file".toList]

def c2msg : Msg := ⟨some [], some [⟨none, ("ghost_tool".toList, [])⟩], []⟩

def c2wmsg : Msg :=
  ⟨some [], some [⟨none, ("web_search".toList, [])⟩, ⟨none, ("fake_tool".toList, [])⟩], []⟩

def c3msg : Msg :=
  ⟨some "<function=t1><parameter=a>1</parameter></function>".toList, none, []⟩

def c3wmsg : Msg := ⟨some [], some [⟨none, ("anything".toList, [])⟩], []⟩

def c3wmsg2 : Msg := ⟨some "hi".toList, none, []⟩

def critic_oracle_denies : AgentState → Except Unit Json :=
  fun _ => .ok (.obj [("is_approved", .bool false)])

def gen_const : AgentState → String := fun _ => "draft"

def c8msg : Msg :=
  ⟨some "<function=t2><parameter=b>2</parameter></function>".toList, none, []⟩

def c8content : List Char := "<function=t3></function>".toList

def c10msg : Msg := ⟨some "hello".toList, none, []⟩

def c10heap : List Msg := [c10msg]

/-! ### Theorems -/

theorem leadsWith_iff {p s : List Char} :
    leadsWith p s = true ↔ ∃ r, s = p ++ r := by
  induction p generalizing s with
  | nil => simp [leadsWith]
  | cons x xs ih =>
    cases s with
    | nil => simp [leadsWith]
    | cons c cs =>
      simp only [leadsWith, Bool.and_eq_true, decide_eq_true_eq, ih]
      constructor
      · rintro ⟨rfl, r, rfl⟩; exact ⟨r, rfl⟩
      · rintro ⟨r, h⟩
        injection h with h1 h2
        exact ⟨h1.symm, r, h2⟩

theorem leadsWith_append (p r : List Char) : leadsWith p (p ++ r) = true :=
  leadsWith_iff.mpr ⟨r, rfl⟩

theorem hasSub_iff {pat s : List Char} :
    hasSub pat s = true ↔ ∃ a b, s = a ++ pat ++ b := by
  induction s with
  | nil =>
    simp only [hasSub, leadsWith_iff]
    constructor
    · rintro ⟨r, h⟩
      exact ⟨[], r, by simpa using h⟩
    · rintro ⟨a, b, h⟩
      have h3 : a = [] ∧ pat = [] ∧ b = [] := by
        simpa [List.append_eq_nil, and_assoc] using h.symm
      exact ⟨[], by simp [h3.2.1]⟩
  | cons c cs ih =>
    simp only [hasSub, Bool.or_eq_true, leadsWith_iff, ih]
    constructor
    · rintro (⟨r, h⟩ | ⟨a, b, h⟩)
      · exact ⟨[], r, by simpa using h⟩
      · exact ⟨c :: a, b, by simp [h]⟩
    · rintro ⟨a, b, h⟩
      cases a with
      | nil => exact Or.inl ⟨b, by simpa using h⟩
      | cons a0 as =>
        injection h with h1 h2
        exact Or.inr ⟨as, b, h2⟩

theorem hasSub_of_infix {pat u s : List Char} (h : hasSub pat u = true)
    (hinf : ∃ w z, s = w ++ u ++ z) : hasSub pat s = true := by
  rcases hasSub_iff.mp h with ⟨a, b, rfl⟩
  rcases hinf with ⟨w, z, rfl⟩
  exact hasSub_iff.mpr ⟨w ++ a, b ++ z, by simp⟩

theorem splitFirst_sound {pat s b a : List Char}
    (h : splitFirst pat s = some (b, a)) : s = b ++ pat ++ a := by
  induction s generalizing b a with
  | nil =>
    simp only [splitFirst] at h
    split at h
    · rename_i hl
      injection h with h'
      injection h' with h1 h2
      subst h1; subst h2
      rcases leadsWith_iff.mp hl with ⟨r, hr⟩
      have h3 : pat = [] ∧ r = [] := by simpa using hr.symm
      simp [h3.1]
    · exact absurd h (by simp)
  | cons c cs ih =>
    simp only [splitFirst] at h
    split at h
    · rename_i hl
      injection h with h'
      injection h' with h1 h2
      subst h1; subst h2
      rcases leadsWith_iff.mp hl with ⟨r, hr⟩
      simp [hr]
    · rename_i hl
      cases hsp : splitFirst pat cs with
      | none => rw [hsp] at h; exact absurd h (by simp)
      | some p =>
        rcases p with ⟨b', a'⟩
        rw [hsp] at h
        injection h with h'
        injection h' with h1 h2
        subst h1; subst h2
        simpa using congrArg (c :: ·) (ih hsp)

theorem splitFirst_cons_of_not_lead {pat : List Char} {c : Char} {cs : List Char}
    (h : leadsWith pat (c :: cs) = false) :
    splitFirst pat (c :: cs) = (splitFirst pat cs).map (fun p => (c :: p.1, p.2)) := by
  simp only [splitFirst, h, Bool.false_eq_true, if_false]
  cases splitFirst pat cs with
  | none => rfl
  | some p => cases p; rfl

theorem splitFirst_cons_self (x : Char) (xs r : List Char) :
    splitFirst (x :: xs) (x :: (xs ++ r)) = some ([], r) := by
  have hl : leadsWith (x :: xs) (x :: (xs ++ r)) = true := leadsWith_append (x :: xs) r
  simp only [splitFirst, hl, if_true]
  have hd : (x :: (xs ++ r)).drop (x :: xs).length = r := by
    rw [show x :: (xs ++ r) = (x :: xs) ++ r from rfl, List.drop_left]
  rw [hd]

/-- A one-character pattern splits at the first occurrence of that character. -/
theorem splitFirst_char {g : Char} {name r : List Char} (h : g ∉ name) :
    splitFirst [g] (name ++ g :: r) = some (name, r) := by
  induction name with
  | nil => simpa using splitFirst_cons_self g [] r
  | cons c cs ih =>
    have hcg : ¬ (g = c) := fun hh => h (by simp [hh])
    have hlead : leadsWith [g] (c :: (cs ++ g :: r)) = false := by
      simp [leadsWith, hcg]
    rw [List.cons_append, splitFirst_cons_of_not_lead hlead,
      ih (fun hm => h (List.mem_cons_of_mem _ hm))]
    rfl

/-- Crossing lemma: a pattern that starts with `<` and contains no other `<`
cannot begin inside `a` and spill into a continuation that is empty or
starts with `<`; any match at the head of `a ++ rest` lies within `a`. -/
theorem lead_confined {t a rest : List Char}
    (ht : '<' ∉ t)
    (hrest : rest = [] ∨ ∃ r', rest = '<' :: r')
    (h : leadsWith ('<' :: t) (a ++ rest) = true) (ha : a ≠ []) :
    ∃ w, a = ('<' :: t) ++ w := by
  rcases leadsWith_iff.mp h with ⟨w, hw⟩
  rcases List.append_eq_append_iff.mp hw with ⟨a', hpat, hrw⟩ | ⟨c', hc1, _⟩
  · -- '<' :: t = a ++ a' and rest = a' ++ w
    cases a' with
    | nil => exact ⟨[], by simpa using hpat.symm⟩
    | cons d ds =>
      exfalso
      have hrest_ne : rest = d :: (ds ++ w) := by simpa using hrw
      have hd : d = '<' := by
        rcases hrest with hre | ⟨r', hre⟩
        · rw [hre] at hrest_ne; exact absurd hrest_ne (by simp)
        · rw [hre] at hrest_ne
          injection hrest_ne with h1 _
          exact h1.symm
      obtain ⟨a0, as, rfl⟩ := List.exists_cons_of_ne_nil ha
      have hteq : t = as ++ d :: ds := by
        have h' : '<' :: t = a0 :: (as ++ d :: ds) := by simpa using hpat
        exact (List.cons_eq_cons.mp h').2
      exact ht (by rw [hteq, hd]; simp)
  · exact ⟨c', hc1⟩

/-- Turn a non-true Bool into a false equation. -/
theorem bool_eq_false {b : Bool} (h : ¬ b = true) : b = false := by
  cases b
  · rfl
  · exact absurd rfl h

/-- First-occurrence split across a concatenation `v ++ pat ++ r` when `pat`
does not occur in `v`, for patterns of the shape `'<' :: t` with no later
`<`: exactly how the lazy groups of the source's regexes locate the closer. -/
theorem splitFirst_boundary {t v r : List Char}
    (ht : '<' ∉ t) (hv : hasSub ('<' :: t) v = false) :
    splitFirst ('<' :: t) (v ++ ('<' :: t) ++ r) = some (v, r) := by
  induction v with
  | nil => simpa using splitFirst_cons_self '<' t r
  | cons c cs ih =>
    have hlead : leadsWith ('<' :: t) (c :: (cs ++ ('<' :: t) ++ r)) = false := by
      apply bool_eq_false
      intro hl
      have hl' : leadsWith ('<' :: t) ((c :: cs) ++ (('<' :: t) ++ r)) = true := by
        simpa using hl
      rcases lead_confined ht (Or.inr ⟨t ++ r, by simp⟩) hl' (by simp) with ⟨w, hw⟩
      have : hasSub ('<' :: t) (c :: cs) = true :=
        hasSub_iff.mpr ⟨[], w, by simpa using hw⟩
      rw [this] at hv
      exact absurd hv (by simp)
    have hvtail : hasSub ('<' :: t) cs = false := by
      apply bool_eq_false
      intro hcon
      have : hasSub ('<' :: t) (c :: cs) = true := by
        simp [hasSub, hcon]
      rw [this] at hv
      exact absurd hv (by simp)
    rw [show (c :: cs) ++ ('<' :: t) ++ r = c :: (cs ++ ('<' :: t) ++ r) by simp,
      splitFirst_cons_of_not_lead hlead, ih hvtail]
    rfl

theorem openFn_eq : openFn = '<' :: "function=".toList := rfl

theorem closeFn_eq : closeFn = '<' :: "/function>".toList := rfl

theorem closePar_eq : closePar = '<' :: "/parameter>".toList := rfl

theorem openTh_eq : openTh = '<' :: "think>".toList := rfl

theorem hasSub_cons_false {pat : List Char} {c : Char} {cs : List Char}
    (h : hasSub pat (c :: cs) = false) :
    leadsWith pat (c :: cs) = false ∧ hasSub pat cs = false := by
  simpa [hasSub, Bool.or_eq_false_iff] using h

/-- No occurrence in the leading prose means no match can start there. -/
theorem not_lead_prose {t : List Char} (ht : '<' ∉ t) {prose rest : List Char}
    (hp : hasSub ('<' :: t) prose = false) (hpne : prose ≠ [])
    (hrest : rest = [] ∨ ∃ r', rest = '<' :: r') :
    leadsWith ('<' :: t) (prose ++ rest) = false := by
  apply bool_eq_false
  intro hl
  rcases lead_confined ht hrest hl hpne with ⟨w, hw⟩
  have : hasSub ('<' :: t) prose = true := hasSub_iff.mpr ⟨[], w, by simpa using hw⟩
  rw [this] at hp
  exact absurd hp (by simp)

theorem matchFn_none {s : List Char} (h : leadsWith openFn s = false) :
    matchFn s = none := by
  simp [matchFn, h]

theorem matchPar_none {s : List Char} (h : leadsWith openPar s = false) :
    matchPar s = none := by
  simp [matchPar, h]

theorem matchTh_none {s : List Char} (h : leadsWith openTh s = false) :
    matchTh s = none := by
  simp [matchTh, h]

theorem scanFnGo_skip (xs rest : List Char) :
    scanFnGo xs.length (xs ++ rest) = scanFnGo 0 rest := by
  induction xs with
  | nil => rfl
  | cons x xs ih =>
    rw [List.cons_append, List.length_cons]
    exact ih

theorem scanParGo_skip (xs rest : List Char) :
    scanParGo xs.length (xs ++ rest) = scanParGo 0 rest := by
  induction xs with
  | nil => rfl
  | cons x xs ih =>
    rw [List.cons_append, List.length_cons]
    exact ih

theorem scanThGo_skip (xs rest : List Char) :
    scanThGo xs.length (xs ++ rest) = scanThGo 0 rest := by
  induction xs with
  | nil => rfl
  | cons x xs ih =>
    rw [List.cons_append, List.length_cons]
    exact ih

/-- The function-block scan steps through opener-free prose unchanged. -/
theorem scanFnGo_prose {prose rest : List Char}
    (hp : hasSub openFn prose = false)
    (hrest : rest = [] ∨ ∃ r', rest = '<' :: r') :
    scanFnGo 0 (prose ++ rest) =
      ((scanFnGo 0 rest).1, prose ++ (scanFnGo 0 rest).2) := by
  induction prose with
  | nil => simp
  | cons c cs ih =>
    have hlead : leadsWith openFn ((c :: cs) ++ rest) = false := by
      rw [openFn_eq] at hp ⊢
      exact not_lead_prose (by decide) hp (by simp) hrest
    have hmn : matchFn (c :: (cs ++ rest)) = none := by
      apply matchFn_none
      simpa using hlead
    have htail := (hasSub_cons_false hp).2
    rw [List.cons_append]
    show (match matchFn (c :: (cs ++ rest)) with
      | some (name, body, len) =>
        ((pyStrip name, pyDict (scanParGo 0 body)) :: (scanFnGo (len - 1) (cs ++ rest)).1,
          (scanFnGo (len - 1) (cs ++ rest)).2)
      | none => ((scanFnGo 0 (cs ++ rest)).1, c :: (scanFnGo 0 (cs ++ rest)).2)) = _
    rw [hmn, ih htail]
    simp

/-- The scan ignores text containing no function opener. -/
theorem scanFnGo_noMatch {s : List Char} (hp : hasSub openFn s = false) :
    scanFnGo 0 s = ([], s) := by
  have h0 : scanFnGo 0 ([] : List Char) = ([], []) := rfl
  simpa [h0] using scanFnGo_prose hp (Or.inl rfl)

/-- The think scan is the identity on `<think>`-free text. -/
theorem scanThGo_id {s : List Char} (h : hasSub openTh s = false) : scanThGo 0 s = s := by
  induction s with
  | nil => rfl
  | cons c cs ih =>
    have hcf := hasSub_cons_false h
    have hmn : matchTh (c :: cs) = none := matchTh_none hcf.1
    show (match matchTh (c :: cs) with
      | some len => scanThGo (len - 1) cs
      | none => c :: scanThGo 0 cs) = c :: cs
    rw [hmn, ih hcf.2]

theorem scanFnGo_drop (y : List Char) : ∀ k, scanFnGo k y = scanFnGo 0 (y.drop k) := by
  induction y with
  | nil => intro k; cases k <;> rfl
  | cons c cs ih =>
    intro k
    cases k with
    | zero => rfl
    | succ k => simpa [List.drop_succ_cons] using ih k

theorem scanParGo_drop (y : List Char) : ∀ k, scanParGo k y = scanParGo 0 (y.drop k) := by
  induction y with
  | nil => intro k; cases k <;> rfl
  | cons c cs ih =>
    intro k
    cases k with
    | zero => rfl
    | succ k => simpa [List.drop_succ_cons] using ih k

theorem scanThGo_drop (y : List Char) : ∀ k, scanThGo k y = scanThGo 0 (y.drop k) := by
  induction y with
  | nil => intro k; cases k <;> rfl
  | cons c cs ih =>
    intro k
    cases k with
    | zero => rfl
    | succ k => simpa [List.drop_succ_cons] using ih k

/-- Successful head match of `_FUNCTION_BLOCK` on a well-formed block. -/
theorem matchFn_render {name body rest : List Char}
    (hname : name ≠ []) (hgt : '>' ∉ name) (hbody : hasSub closeFn body = false) :
    matchFn (openFn ++ (name ++ '>' :: (body ++ closeFn ++ rest))) =
      some (name, body,
        openFn.length + name.length + 1 + body.length + closeFn.length) := by
  have hb : splitFirst closeFn (body ++ closeFn ++ rest) = some (body, rest) := by
    rw [closeFn_eq] at hbody ⊢
    exact splitFirst_boundary (by decide) hbody
  have hb2 : splitFirst closeFn (body ++ (closeFn ++ rest)) = some (body, rest) := by
    rw [← List.append_assoc]; exact hb
  simp [matchFn, leadsWith_append, List.drop_left, splitFirst_char hgt, hname, hb, hb2]

/-- Successful head match of `_PARAMETER` on a well-formed parameter. -/
theorem matchPar_render {key value rest : List Char}
    (hkey : key ≠ []) (hgt : '>' ∉ key) (hval : hasSub closePar value = false) :
    matchPar (openPar ++ (key ++ '>' :: (value ++ closePar ++ rest))) =
      some (key, value,
        openPar.length + key.length + 1 + value.length + closePar.length) := by
  have hb : splitFirst closePar (value ++ closePar ++ rest) = some (value, rest) := by
    rw [closePar_eq] at hval ⊢
    exact splitFirst_boundary (by decide) hval
  have hb2 : splitFirst closePar (value ++ (closePar ++ rest)) = some (value, rest) := by
    rw [← List.append_assoc]; exact hb
  simp [matchPar, leadsWith_append, List.drop_left, splitFirst_char hgt, hkey, hb, hb2]

theorem scanParGo_step {c : Char} {cs key value : List Char} {len : Nat}
    (hm : matchPar (c :: cs) = some (key, value, len)) :
    scanParGo 0 (c :: cs) = (pyStrip key, value) :: scanParGo (len - 1) cs := by
  show (match matchPar (c :: cs) with
    | some (key, value, len) => (pyStrip key, value) :: scanParGo (len - 1) cs
    | none => scanParGo 0 cs) = _
  rw [hm]

theorem scanFnGo_step {c : Char} {cs name body : List Char} {len : Nat}
    (hm : matchFn (c :: cs) = some (name, body, len)) :
    scanFnGo 0 (c :: cs) =
      ((pyStrip name, pyDict (scanParGo 0 body)) :: (scanFnGo (len - 1) cs).1,
        (scanFnGo (len - 1) cs).2) := by
  show (match matchFn (c :: cs) with
    | some (name, body, len) =>
      ((pyStrip name, pyDict (scanParGo 0 body)) :: (scanFnGo (len - 1) cs).1,
        (scanFnGo (len - 1) cs).2)
    | none => ((scanFnGo 0 cs).1, c :: (scanFnGo 0 cs).2)) = _
  rw [hm]

/-- The parameter scan recovers exactly the rendered parameters in order,
keys trimmed and values verbatim. -/
theorem scanParGo_render {ps : List XmlParam} (h : ∀ p ∈ ps, WFparam p) :
    scanParGo 0 (bodyOf ps) = ps.map (fun p => (pyStrip p.key, p.value)) := by
  induction ps with
  | nil => rfl
  | cons p ps ih =>
    obtain ⟨hkey, hgt, hval⟩ := h p (by simp)
    have hform : bodyOf (p :: ps)
        = '<' :: ("parameter=".toList ++
            (p.key ++ '>' :: (p.value ++ closePar ++ bodyOf ps))) := by
      show renderParam p ++ bodyOf ps = _
      rw [renderParam, show openPar = '<' :: "parameter=".toList from rfl]
      simp
    have hm : matchPar ('<' :: ("parameter=".toList ++
          (p.key ++ '>' :: (p.value ++ closePar ++ bodyOf ps))))
        = some (p.key, p.value,
            openPar.length + p.key.length + 1 + p.value.length + closePar.length) :=
      @matchPar_render p.key p.value (bodyOf ps) hkey hgt hval
    rw [hform, scanParGo_step hm, scanParGo_drop]
    have hdrop : ("parameter=".toList ++
          (p.key ++ '>' :: (p.value ++ closePar ++ bodyOf ps))).drop
        (openPar.length + p.key.length + 1 + p.value.length + closePar.length - 1)
        = bodyOf ps := by
      have hform2 : "parameter=".toList ++
            (p.key ++ '>' :: (p.value ++ closePar ++ bodyOf ps))
          = ("parameter=".toList ++ p.key ++ '>' :: (p.value ++ closePar)) ++ bodyOf ps := by
        simp
      have hlen3 : ("parameter=".toList ++ p.key ++ '>' :: (p.value ++ closePar)).length
          = openPar.length + p.key.length + 1 + p.value.length + closePar.length - 1 := by
        have h10 : ("parameter=".toList).length = 10 := rfl
        have h11 : openPar.length = 11 := rfl
        have h12 : closePar.length = 12 := rfl
        simp [h10, h11, h12]
        omega
      rw [hform2, ← hlen3, List.drop_left]
    rw [hdrop, ih (fun q hq => h q (by simp [hq]))]
    simp

/-- The function-block scan consumes a rendered block at the head and emits
its parsed call. -/
theorem scanFnGo_block {b : XmlBlock} {rest : List Char}
    (hname : b.name ≠ []) (hgt : '>' ∉ b.name)
    (hbody : hasSub closeFn (bodyOf b.params) = false) :
    scanFnGo 0 (renderBlock b ++ rest) =
      ((pyStrip b.name, pyDict (scanParGo 0 (bodyOf b.params))) :: (scanFnGo 0 rest).1,
        (scanFnGo 0 rest).2) := by
  have hform : renderBlock b ++ rest
      = '<' :: ("function=".toList ++
          (b.name ++ '>' :: (bodyOf b.params ++ closeFn ++ rest))) := by
    rw [renderBlock, show openFn = '<' :: "function=".toList from rfl]
    simp
  have hm : matchFn ('<' :: ("function=".toList ++
        (b.name ++ '>' :: (bodyOf b.params ++ closeFn ++ rest))))
      = some (b.name, bodyOf b.params,
          openFn.length + b.name.length + 1 + (bodyOf b.params).length + closeFn.length) :=
    @matchFn_render b.name (bodyOf b.params) rest hname hgt hbody
  rw [hform, scanFnGo_step hm, scanFnGo_drop]
  have hdrop : ("function=".toList ++
        (b.name ++ '>' :: (bodyOf b.params ++ closeFn ++ rest))).drop
      (openFn.length + b.name.length + 1 + (bodyOf b.params).length + closeFn.length - 1)
      = rest := by
    have hform2 : "function=".toList ++
          (b.name ++ '>' :: (bodyOf b.params ++ closeFn ++ rest))
        = ("function=".toList ++ b.name ++ '>' :: (bodyOf b.params ++ closeFn)) ++ rest := by
      simp
    have hlen3 : ("function=".toList ++ b.name ++ '>' :: (bodyOf b.params ++ closeFn)).length
        = openFn.length + b.name.length + 1 + (bodyOf b.params).length + closeFn.length - 1 := by
      have h9 : ("function=".toList).length = 9 := rfl
      have h10 : openFn.length = 10 := rfl
      have h11 : closeFn.length = 11 := rfl
      simp [h9, h10, h11]
      omega
    rw [hform2, ← hlen3, List.drop_left]
  rw [hdrop]

/-- Main scan theorem: on well-formed rendered content the scan recovers
exactly the rendered blocks in source order (names trimmed, parameter keys
trimmed, values verbatim, arguments collected as a Python dict) and keeps
exactly the interleaved prose. -/
theorem scanFnGo_render {segs : List (List Char × XmlBlock)} {last : List Char}
    (hseg : WFsegs segs) (hlast : hasSub openFn last = false) :
    scanFnGo 0 (renderContent segs last) =
      (segs.map (fun s =>
        (pyStrip s.2.name, pyDict (s.2.params.map (fun p => (pyStrip p.key, p.value))))),
        proseConcat segs last) := by
  induction segs with
  | nil => simpa [renderContent, proseConcat] using scanFnGo_noMatch hlast
  | cons s segs ih =>
    obtain ⟨p, b⟩ := s
    obtain ⟨hprose, hblk⟩ := hseg (p, b) (by simp)
    obtain ⟨hbname, hbgt, hbbody, hbps⟩ := hblk
    have hrest_shape : renderBlock b ++ renderContent segs last = [] ∨
        ∃ r', renderBlock b ++ renderContent segs last = '<' :: r' := by
      right
      refine ⟨"function=".toList ++ (b.name ++ '>' :: (bodyOf b.params ++ closeFn)) ++
        renderContent segs last, ?_⟩
      rw [renderBlock, show openFn = '<' :: "function=".toList from rfl]
      simp
    have h1 := @scanFnGo_prose p (renderBlock b ++ renderContent segs last)
      hprose hrest_shape
    have h2 := @scanFnGo_block b (renderContent segs last) hbname hbgt hbbody
    have hsegs' : WFsegs segs := fun q hq => hseg q (by simp [hq])
    rw [renderContent, h1, h2, ih hsegs', scanParGo_render hbps]
    simp [proseConcat]

/-! ### Whitespace-strip algebra

`_strip_think_tags` and `_parse_xml_tool_calls` both end in `.strip()`;
these lemmas let the strips commute with the prose decomposition. -/
theorem dropWhile_dropWhile_append (p : Char → Bool) (a m : List Char) :
    (a.dropWhile p ++ m).dropWhile p = (a ++ m).dropWhile p := by
  induction a with
  | nil => rfl
  | cons c cs ih =>
    by_cases hc : p c = true
    · simp only [List.dropWhile_cons, hc, if_true, List.cons_append]
      exact ih
    · have hc' : p c = false := bool_eq_false hc
      simp [List.dropWhile_cons, hc']

theorem stripR_append_stripR (z b : List Char) :
    stripR (z ++ stripR b) = stripR (z ++ b) := by
  unfold stripR
  rw [List.reverse_append, List.reverse_reverse, dropWhile_dropWhile_append,
    ← List.reverse_append]

theorem stripL_dropWhile_eq_nil {t : List Char}
    (h : t.reverse.dropWhile pySpace = []) : stripL t = [] := by
  unfold stripL
  rw [List.dropWhile_eq_nil_iff] at h ⊢
  intro x hx
  exact h x (by simpa using hx)

theorem stripR_cons (c : Char) (t : List Char) :
    stripR (c :: t) =
      if t.reverse.dropWhile pySpace = [] then
        (if pySpace c = true then [] else [c])
      else c :: stripR t := by
  unfold stripR
  rw [show (c :: t).reverse = t.reverse ++ [c] from by simp, List.dropWhile_append]
  by_cases hD : t.reverse.dropWhile pySpace = []
  · have hDe : (t.reverse.dropWhile pySpace).isEmpty = true := by simp [hD]
    rw [hDe, if_pos hD]
    by_cases hc : pySpace c = true
    · simp [List.dropWhile_cons, hc]
    · simp [List.dropWhile_cons, hc]
  · have hDe : (t.reverse.dropWhile pySpace).isEmpty = false := by
      simpa [List.isEmpty_iff] using hD
    rw [hDe, if_neg hD]
    simp

theorem stripL_cons_space {c : Char} {t : List Char} (hc : pySpace c = true) :
    stripL (c :: t) = stripL t := by
  unfold stripL
  simp [List.dropWhile_cons, hc]

theorem stripL_cons_keep {c : Char} {t : List Char} (hc : pySpace c = false) :
    stripL (c :: t) = c :: t := by
  unfold stripL
  simp [List.dropWhile_cons, hc]

theorem stripL_stripR_comm (s : List Char) : stripL (stripR s) = stripR (stripL s) := by
  induction s with
  | nil => rfl
  | cons c t ih =>
    by_cases hD : t.reverse.dropWhile pySpace = []
    · have htL : stripL t = [] := stripL_dropWhile_eq_nil hD
      by_cases hc : pySpace c = true
      · rw [stripR_cons, if_pos hD, if_pos hc, stripL_cons_space hc, htL]
        rfl
      · have hc' : pySpace c = false := bool_eq_false hc
        rw [stripL_cons_keep hc']
        rw [stripR_cons, if_pos hD, if_neg hc]
        exact stripL_cons_keep hc'
    · rw [stripR_cons, if_neg hD]
      by_cases hc : pySpace c = true
      · rw [stripL_cons_space hc, stripL_cons_space hc, ih]
      · have hc' : pySpace c = false := bool_eq_false (by simp [hc])
        rw [stripL_cons_keep hc', stripL_cons_keep hc', stripR_cons, if_neg hD]

/-- Stripping the strip-normalised ends does not change the full strip. -/
theorem pyStrip_strip_ends (a m b : List Char) :
    pyStrip (stripL a ++ m ++ stripR b) = pyStrip (a ++ m ++ b) := by
  unfold pyStrip
  have h1 : stripL (stripL a ++ m ++ stripR b) = stripL (a ++ (m ++ stripR b)) := by
    unfold stripL
    rw [List.append_assoc]
    exact dropWhile_dropWhile_append pySpace a (m ++ stripR b)
  rw [h1, ← List.append_assoc, ← stripL_stripR_comm, stripR_append_stripR,
    stripL_stripR_comm]

/-- Left strip stops at a non-space continuation. -/
theorem stripL_append_of_head {a y : List Char} {x : Char} (hx : pySpace x = false) :
    stripL (a ++ x :: y) = stripL a ++ x :: y := by
  unfold stripL
  rw [List.dropWhile_append]
  by_cases h : (a.dropWhile pySpace).isEmpty
  · rw [h]
    simp [List.dropWhile_cons, hx, List.isEmpty_iff.mp h]
  · have h' : (a.dropWhile pySpace).isEmpty = false := bool_eq_false h
    rw [h']
    simp

/-- Right strip stops at a non-space character before the tail. -/
theorem stripR_append_of_last {b z : List Char} {x : Char} (hx : pySpace x = false) :
    stripR (b ++ x :: z) = b ++ x :: stripR z := by
  unfold stripR
  rw [show (b ++ x :: z).reverse = z.reverse ++ (x :: b.reverse) from by simp,
    List.dropWhile_append]
  by_cases h : (z.reverse.dropWhile pySpace).isEmpty
  · rw [h]
    have hz : z.reverse.dropWhile pySpace = [] := List.isEmpty_iff.mp h
    simp [List.dropWhile_cons, hx, hz]
  · have h' : (z.reverse.dropWhile pySpace).isEmpty = false := bool_eq_false h
    rw [h']
    simp

/-- `stripL` is a suffix, so substring-freeness is inherited. -/
theorem hasSub_stripL_false {pat a : List Char} (h : hasSub pat a = false) :
    hasSub pat (stripL a) = false := by
  apply bool_eq_false
  intro htrue
  have : hasSub pat a = true :=
    hasSub_of_infix htrue ⟨a.takeWhile pySpace, [],
      by simp [stripL, List.takeWhile_append_dropWhile]⟩
  rw [this] at h
  exact absurd h (by simp)

/-- `stripR` is a prefix, so substring-freeness is inherited. -/
theorem hasSub_stripR_false {pat b : List Char} (h : hasSub pat b = false) :
    hasSub pat (stripR b) = false := by
  apply bool_eq_false
  intro htrue
  have hb : b = stripR b ++ (b.reverse.takeWhile pySpace).reverse := by
    unfold stripR
    rw [← List.reverse_append, List.takeWhile_append_dropWhile, List.reverse_reverse]
  have : hasSub pat b = true :=
    hasSub_of_infix htrue ⟨[], (b.reverse.takeWhile pySpace).reverse, by simpa using hb⟩
  rw [this] at h
  exact absurd h (by simp)

/-- With no `<think>` occurrence, `_strip_think_tags` is just `.strip()`. -/
theorem strip_think_no_think {s : List Char} (h : hasSub openTh s = false) :
    _strip_think_tags s = pyStrip s := by
  unfold _strip_think_tags
  rw [scanThGo_id h]

theorem renderContent_split (segs : List (List Char × XmlBlock)) (last : List Char) :
    renderContent segs last = renderContent segs [] ++ last := by
  induction segs with
  | nil => simp [renderContent]
  | cons s segs ih =>
    obtain ⟨p, b⟩ := s
    simp [renderContent, ih]

theorem proseConcat_split (segs : List (List Char × XmlBlock)) (x : List Char) :
    proseConcat segs x = proseConcat segs [] ++ x := by
  induction segs with
  | nil => simp [proseConcat]
  | cons s segs ih =>
    obtain ⟨p, b⟩ := s
    simp [proseConcat, ih]

theorem renderContent_end_gt {segs : List (List Char × XmlBlock)} (h : segs ≠ []) :
    ∃ V, renderContent segs [] = V ++ ['>'] := by
  induction segs with
  | nil => exact absurd rfl h
  | cons s segs ih =>
    obtain ⟨p, b⟩ := s
    cases segs with
    | nil =>
      refine ⟨p ++ (openFn ++ b.name ++ '>' :: (bodyOf b.params ++ "</function".toList)), ?_⟩
      simp [renderContent, renderBlock, show closeFn = "</function".toList ++ ['>'] from rfl]
    | cons s2 segs2 =>
      obtain ⟨V, hV⟩ := ih (by simp)
      refine ⟨p ++ (renderBlock b ++ V), ?_⟩
      rw [renderContent, hV]
      simp

theorem renderContent_ne_nil {segs : List (List Char × XmlBlock)} (h : segs ≠ [])
    (last : List Char) : renderContent segs last ≠ [] := by
  cases segs with
  | nil => exact absurd rfl h
  | cons s segs =>
    obtain ⟨p, b⟩ := s
    intro hnil
    have hlen := congrArg List.length hnil
    have h10 : openFn.length = 10 := rfl
    simp [renderContent, renderBlock, h10] at hlen

theorem filterMap_all_valid {valid : List (List Char)}
    {calls : List (List Char × List (List Char × List Char))}
    (h : ∀ c ∈ calls, c.1 ∈ valid) :
    calls.filterMap
        (fun c => if c.1 ∈ valid then some (⟨none, c⟩ : ProxyCall) else none)
      = calls.map (fun c => (⟨none, c⟩ : ProxyCall)) := by
  induction calls with
  | nil => rfl
  | cons c cs ih =>
    have hc : c.1 ∈ valid := h c (by simp)
    simp [List.filterMap_cons, hc, ih (fun d hd => h d (by simp [hd]))]

/-- The stripped content of a well-formed rendering is again a well-formed
rendering, with the first prose left-stripped and the tail right-stripped. -/
theorem pyStrip_renderContent {p0 : List Char} {b0 : XmlBlock}
    {rest : List (List Char × XmlBlock)} {last : List Char} :
    pyStrip (renderContent ((p0, b0) :: rest) last) =
      renderContent ((stripL p0, b0) :: rest) (stripR last) := by
  have hB : renderBlock b0 ++ renderContent rest last =
      '<' :: ("function=".toList ++
        (b0.name ++ '>' :: (bodyOf b0.params ++ closeFn)) ++ renderContent rest last) := by
    rw [renderBlock, show openFn = '<' :: "function=".toList from rfl]
    simp
  have hlt : pySpace '<' = false := by decide
  have hgt : pySpace '>' = false := by decide
  unfold pyStrip
  have h1 : stripL (renderContent ((p0, b0) :: rest) last)
      = renderContent ((stripL p0, b0) :: rest) last := by
    rw [renderContent, hB, stripL_append_of_head hlt, renderContent, hB]
  rw [h1]
  obtain ⟨V, hV⟩ := @renderContent_end_gt
    ((stripL p0, b0) :: rest) (by simp)
  rw [renderContent_split, hV, show (V ++ ['>']) ++ last = V ++ '>' :: last from by simp,
    stripR_append_of_last hgt,
    show V ++ '>' :: stripR last = (V ++ ['>']) ++ stripR last from by simp, ← hV,
    ← renderContent_split]

/-- Claim C1 core: on a raw message with no structured tool calls whose
content renders N >= 1 well-formed function blocks all naming valid tools,
normalization returns exactly the N calls in source order (names and keys
trimmed, values verbatim) and the content with all block markup removed
and the interleaved prose kept (modulo the source's terminal strips). -/
theorem hermes_recovery_exact
    (msg : Msg) (valid : List (List Char)) (segs : List (List Char × XmlBlock))
    (last : List Char)
    (hmsg : msg.content = some (renderContent segs last))
    (htc : msg.tool_calls.getD [] = [])
    (hn : segs ≠ [])
    (hwf : WFsegs segs)
    (hlast : hasSub openFn last = false)
    (hth : hasSub openTh (renderContent segs last) = false)
    (hvalid : ∀ s ∈ segs, pyStrip s.2.name ∈ valid) :
    normalize_tool_calls msg valid =
      { msg with
        tool_calls := some (segs.map (fun s => (⟨none,
          (pyStrip s.2.name,
            pyDict (s.2.params.map (fun p => (pyStrip p.key, p.value))))⟩ : ProxyCall))),
        content := some (pyStrip (proseConcat segs last)) } := by
  obtain ⟨⟨p0, b0⟩, rest, rfl⟩ : ∃ s rest, segs = s :: rest := by
    cases segs with
    | nil => exact absurd rfl hn
    | cons s rest => exact ⟨s, rest, rfl⟩
  have hwf1 : hasSub openFn p0 = false := (hwf (p0, b0) (by simp)).1
  have hsegs1 : WFsegs ((stripL p0, b0) :: rest) := by
    intro s hs
    rcases List.mem_cons.mp hs with hs1 | hs2
    · rw [hs1]
      exact ⟨hasSub_stripL_false hwf1, (hwf (p0, b0) (by simp)).2⟩
    · exact hwf s (by simp [hs2])
  have hlast' : hasSub openFn (stripR last) = false := hasSub_stripR_false hlast
  -- the content after think-stripping
  have hcontent1 : _strip_think_tags (renderContent ((p0, b0) :: rest) last)
      = renderContent ((stripL p0, b0) :: rest) (stripR last) := by
    rw [strip_think_no_think hth, pyStrip_renderContent]
  -- the scan on the stripped content
  have hscan := scanFnGo_render hsegs1 hlast'
  -- the cleaned prose equals the strip of the original prose
  have hclean : pyStrip (proseConcat ((stripL p0, b0) :: rest) (stripR last))
      = pyStrip (proseConcat ((p0, b0) :: rest) last) := by
    rw [proseConcat, proseConcat_split rest (stripR last), ← List.append_assoc,
      pyStrip_strip_ends, List.append_assoc, ← proseConcat_split rest last,
      proseConcat]
  have hparse : _parse_xml_tool_calls
        (renderContent ((stripL p0, b0) :: rest) (stripR last))
      = (((p0, b0) :: rest).map (fun s =>
          (pyStrip s.2.name, pyDict (s.2.params.map (fun p => (pyStrip p.key, p.value))))),
        pyStrip (proseConcat ((p0, b0) :: rest) last)) := by
    unfold _parse_xml_tool_calls
    rw [hscan, ← hclean]
    simp
  have hcne : renderContent ((p0, b0) :: rest) last ≠ [] :=
    renderContent_ne_nil (by simp) last
  have hmapne : ((p0, b0) :: rest).map (fun s =>
      (pyStrip s.2.name, pyDict (s.2.params.map (fun p => (pyStrip p.key, p.value)))))
      ≠ [] := by simp
  have hallv : ∀ c ∈ ((p0, b0) :: rest).map (fun s =>
      (pyStrip s.2.name, pyDict (s.2.params.map (fun p => (pyStrip p.key, p.value))))),
      c.1 ∈ valid := by
    intro c hc
    rcases List.mem_map.mp hc with ⟨s, hs, rfl⟩
    exact hvalid s hs
  have hrec := filterMap_all_valid hallv
  have hrecne : (((p0, b0) :: rest).map (fun s =>
      (pyStrip s.2.name, pyDict (s.2.params.map (fun p => (pyStrip p.key, p.value)))))).map
      (fun c => (⟨none, c⟩ : ProxyCall)) ≠ [] := by simp
  unfold normalize_tool_calls normalize_tool_calls_patch
  rw [hmsg, htc]
  simp only [Option.getD_some, ne_eq, not_true_eq_false, if_false,
    reduceCtorEq, not_false_eq_true, hcne, if_true, hcontent1, hparse, hrec]
  rw [if_pos ⟨hmapne, hrecne⟩]
  simp [List.map_map]

theorem splitLines_ne_nil (s : List Char) : splitLines s ≠ [] := by
  cases s with
  | nil => simp [splitLines]
  | cons c cs =>
    by_cases hc : c = '\n'
    · simp [splitLines, hc]
    · simp only [splitLines, hc, if_false]
      cases h : splitLines cs with
      | nil => simp
      | cons l ls => simp

theorem splitLines_append (a b : List Char) :
    splitLines (a ++ '\n' :: b) = splitLines a ++ splitLines b := by
  induction a with
  | nil => simp [splitLines]
  | cons c cs ih =>
    by_cases hc : c = '\n'
    · simp [splitLines, hc, ih]
    · simp only [List.cons_append, splitLines, hc, if_false, List.append_eq]
      rw [ih]
      cases h : splitLines cs with
      | nil => exact absurd h (splitLines_ne_nil cs)
      | cons l ls => simp

theorem splitLines_no_nl {a : List Char} (h : '\n' ∉ a) : splitLines a = [a] := by
  induction a with
  | nil => rfl
  | cons c cs ih =>
    have hc : ¬ (c = '\n') := fun hh => h (by simp [hh])
    simp only [splitLines, hc, if_false]
    rw [ih (fun hm => h (List.mem_cons_of_mem _ hm))]

theorem joinNl_append {X Y : List (List Char)} (hX : X ≠ []) (hY : Y ≠ []) :
    joinNl (X ++ Y) = joinNl X ++ '\n' :: joinNl Y := by
  induction X with
  | nil => exact absurd rfl hX
  | cons l ls ih =>
    cases ls with
    | nil =>
      cases Y with
      | nil => exact absurd rfl hY
      | cons y ys => simp [joinNl]
    | cons l2 ls2 =>
      have := ih (by simp)
      simp only [List.cons_append, joinNl] at this ⊢
      rw [show (l2 :: ls2) ++ Y = l2 :: (ls2 ++ Y) from rfl] at *
      simp [this]

theorem transLines_ne_nil (m : List Char → List Char) (f : Bool)
    {X : List (List Char)} (h : X ≠ []) : (transLines m f X).1 ≠ [] := by
  cases X with
  | nil => exact absurd rfl h
  | cons l ls => simp [transLines]

theorem transLinesLast_ne_nil (m : List Char → List Char) (f : Bool)
    {X : List (List Char)} (h : X ≠ []) : (transLinesLast m f X).1 ≠ [] := by
  cases X with
  | nil => exact absurd rfl h
  | cons l ls =>
    cases ls with
    | nil =>
      by_cases hl : l = []
      · simp [transLinesLast, hl]
      · simp [transLinesLast, hl]
    | cons l2 ls2 => simp [transLinesLast]

theorem transLinesLast_append (m : List Char → List Char) (f : Bool)
    (X : List (List Char)) {Y : List (List Char)} (hY : Y ≠ []) :
    transLinesLast m f (X ++ Y) =
      ((transLines m f X).1 ++ (transLinesLast m (transLines m f X).2 Y).1,
        (transLinesLast m (transLines m f X).2 Y).2) := by
  induction X generalizing f with
  | nil => simp [transLines]
  | cons l ls ih =>
    cases hXY : ls ++ Y with
    | nil => exact absurd (List.append_eq_nil.mp hXY).2 hY
    | cons z zs =>
      show transLinesLast m f (l :: (ls ++ Y)) = _
      rw [hXY]
      show ((transformLine m f l).1 ::
          (transLinesLast m (transformLine m f l).2 (z :: zs)).1,
          (transLinesLast m (transformLine m f l).2 (z :: zs)).2) = _
      rw [← hXY, ih (transformLine m f l).2]
      simp [transLines]

theorem splitLastNl_none {s : List Char} (h : splitLastNl s = none) : '\n' ∉ s := by
  induction s with
  | nil => simp
  | cons c cs ih =>
    simp only [splitLastNl] at h
    cases hs : splitLastNl cs with
    | some p =>
      rcases p with ⟨r, rest⟩
      rw [hs] at h
      exact absurd h (by simp)
    | none =>
      rw [hs] at h
      by_cases hc : c = '\n'
      · rw [if_pos hc] at h
        exact absurd h (by simp)
      · intro hmem
        rcases List.mem_cons.mp hmem with h1 | h2
        · exact hc h1.symm
        · exact ih hs h2

theorem splitLastNl_of_no_nl {s : List Char} (h : '\n' ∉ s) : splitLastNl s = none := by
  induction s with
  | nil => rfl
  | cons c cs ih =>
    have hc : ¬ (c = '\n') := fun hh => h (by simp [hh])
    simp only [splitLastNl, ih (fun hm => h (List.mem_cons_of_mem _ hm))]
    simp [hc]

theorem splitLastNl_sound {s r rest : List Char}
    (h : splitLastNl s = some (r, rest)) :
    s = r ++ rest ∧ (∃ r', r = r' ++ ['\n']) ∧ '\n' ∉ rest := by
  induction s generalizing r rest with
  | nil => simp [splitLastNl] at h
  | cons c cs ih =>
    simp only [splitLastNl] at h
    cases hs : splitLastNl cs with
    | some p =>
      rcases p with ⟨r0, rest0⟩
      rw [hs] at h
      injection h with h'
      injection h' with h1 h2
      subst h1
      subst h2
      obtain ⟨he, ⟨r', hr'⟩, hnn⟩ := ih hs
      exact ⟨by simp [he], ⟨c :: r', by simp [hr']⟩, hnn⟩
    | none =>
      rw [hs] at h
      by_cases hc : c = '\n'
      · rw [if_pos hc] at h
        injection h with h'
        injection h' with h1 h2
        subst h1
        subst h2
        exact ⟨rfl, ⟨[], by simp [hc]⟩, splitLastNl_none hs⟩
      · rw [if_neg hc] at h
        exact absurd h (by simp)

/-- `_transform` distributes over a newline-terminated first part. -/
theorem gtransform_append (m : List Char → List Char) (f : Bool) (a' b : List Char) :
    gtransform m f ((a' ++ ['\n']) ++ b) =
      ((gtransform m f (a' ++ ['\n'])).1 ++
        (gtransform m (gtransform m f (a' ++ ['\n'])).2 b).1,
        (gtransform m (gtransform m f (a' ++ ['\n'])).2 b).2) := by
  unfold gtransform
  have h1 : splitLines ((a' ++ ['\n']) ++ b) = splitLines a' ++ splitLines b := by
    rw [show (a' ++ ['\n']) ++ b = a' ++ '\n' :: b from by simp, splitLines_append]
  have h2 : splitLines (a' ++ ['\n']) = splitLines a' ++ [[]] := by
    rw [show a' ++ ['\n'] = a' ++ '\n' :: ([] : List Char) from by simp, splitLines_append]
    rfl
  rw [h1, h2,
    transLinesLast_append m f (splitLines a') (splitLines_ne_nil b),
    transLinesLast_append m f (splitLines a') (Y := [[]]) (by simp)]
  have hLast : transLinesLast m (transLines m f (splitLines a')).2 [[]] =
      ([[]], (transLines m f (splitLines a')).2) := by
    simp [transLinesLast]
  rw [hLast]
  have hX := transLines_ne_nil m f (splitLines_ne_nil a')
  have hY := transLinesLast_ne_nil m (transLines m f (splitLines a')).2
    (splitLines_ne_nil b)
  rw [joinNl_append hX hY, joinNl_append hX (by simp)]
  simp [joinNl]

theorem feed_no_nl (m : List Char → List Char) (s : GF) (t : List Char) :
    '\n' ∉ (feed m s t).2.buffer := by
  unfold feed
  cases h : splitLastNl (s.buffer ++ t) with
  | none => exact splitLastNl_none h
  | some p =>
    rcases p with ⟨r, rest⟩
    exact (splitLastNl_sound h).2.2

theorem totalOut_eq_gtransform {m : List Char → List Char} {s : GF}
    (t : List Char) :
    totalOut m s t = (gtransform m s.inFence (s.buffer ++ t)).1 := by
  unfold totalOut feed
  cases h : splitLastNl (s.buffer ++ t) with
  | none =>
    show [] ++ (gfFlush m ⟨s.buffer ++ t, s.inFence⟩).1 = _
    unfold gfFlush
    by_cases hb : s.buffer ++ t = []
    · simp only [hb, if_pos rfl]
      rfl
    · simp only [hb, if_neg hb]
      simp
  | some p =>
    rcases p with ⟨r, rest⟩
    obtain ⟨he, ⟨r', hr'⟩, hnn⟩ := splitLastNl_sound h
    show (gtransform m s.inFence r).1 ++
        (gfFlush m ⟨rest, (gtransform m s.inFence r).2⟩).1 = _
    unfold gfFlush
    by_cases hrest : rest = []
    · simp only [hrest]
      rw [he, hrest]
      simp
    · simp only [hrest, if_neg hrest]
      rw [he, hr', gtransform_append, ← hr']
      simp

theorem totalOut_append {m : List Char → List Char} {s : GF}
    (a b : List Char) :
    totalOut m s (a ++ b) = (feed m s a).1 ++ totalOut m (feed m s a).2 b := by
  rw [totalOut_eq_gtransform, totalOut_eq_gtransform]
  unfold feed
  cases h : splitLastNl (s.buffer ++ a) with
  | none =>
    show (gtransform m s.inFence (s.buffer ++ (a ++ b))).1
      = [] ++ (gtransform m s.inFence ((s.buffer ++ a) ++ b)).1
    simp
  | some p =>
    rcases p with ⟨r, rest⟩
    obtain ⟨he, ⟨r', hr'⟩, hnn⟩ := splitLastNl_sound h
    show (gtransform m s.inFence (s.buffer ++ (a ++ b))).1
      = (gtransform m s.inFence r).1 ++
        (gtransform m (gtransform m s.inFence r).2 (rest ++ b)).1
    have hsb : s.buffer ++ (a ++ b) = (r' ++ ['\n']) ++ (rest ++ b) := by
      rw [← List.append_assoc, he, hr']
      simp
    rw [hsb, gtransform_append, ← hr']

theorem feedAll_total (m : List Char → List Char) :
    ∀ (chunks : List (List Char)) (s : GF), '\n' ∉ s.buffer →
    (feedAll m s chunks).1 ++ (gfFlush m (feedAll m s chunks).2).1
      = totalOut m s chunks.flatten := by
  intro chunks
  induction chunks with
  | nil =>
    intro s hs
    show [] ++ (gfFlush m s).1 = totalOut m s []
    unfold totalOut feed
    rw [show s.buffer ++ [] = s.buffer from by simp, splitLastNl_of_no_nl hs]
  | cons c cs ih =>
    intro s hs
    show ((feed m s c).1 ++ (feedAll m (feed m s c).2 cs).1) ++
      (gfFlush m (feedAll m (feed m s c).2 cs).2).1 = totalOut m s (c ++ cs.flatten)
    rw [List.append_assoc, ih (feed m s c).2 (feed_no_nl m s c),
      totalOut_append]

/-- Claim C5: feeding any partition of a text chunk by chunk and flushing
emits exactly what feeding the whole text in one call and flushing emits —
for every line rewrite. Chunk boundaries never change the final output. -/
theorem goosefilter_chunking_invariant (m : List Char → List Char)
    (chunks : List (List Char)) :
    (feedAll m ⟨[], false⟩ chunks).1 ++ (gfFlush m (feedAll m ⟨[], false⟩ chunks).2).1
      = (feed m ⟨[], false⟩ chunks.flatten).1 ++
        (gfFlush m (feed m ⟨[], false⟩ chunks.flatten).2).1 :=
  feedAll_total m chunks ⟨[], false⟩ (by simp)

/-- Claim C6: a line whose stripped form starts with the fence delimiter
toggles the fence state and is returned unmodified, and any line processed
while the fence is open is returned unmodified — for every line rewrite. -/
theorem goosefilter_fence_passthrough (m : List Char → List Char) (f : Bool)
    (line : List Char) :
    (leadsWith fenceMark (pyStrip line) = true →
      transformLine m f line = (line, !f)) ∧
    (f = true → (transformLine m f line).1 = line) := by
  constructor
  · intro h
    simp [transformLine, h]
  · intro hf
    unfold transformLine
    by_cases h : leadsWith fenceMark (pyStrip line) = true
    · simp [h]
    · simp [h, hf]

theorem applyCritic_count (st : AgentState) (p : CriticPatch) :
    (applyCritic st p).critique_count = p.critique_count := rfl

theorem loop_next_count (gen : AgentState → String) (st : AgentState) (p : CriticPatch) :
    (synthesis_node gen (revise_node (applyCritic st p))).critique_count
      = p.critique_count := by
  simp [synthesis_node, revise_node, applyCritic]

/-- One loop iteration below the bound with a non-approving verdict:
the model is invoked, the route is `revise`, and the loop recurses. -/
theorem runLoop_step_revise (oracle : AgentState → Except Unit Json)
    (gen : AgentState → String) {st : AgentState} {v : CritVerdict}
    (hcp : critic_parse (oracle st) = .ok v) (hna : pyTruthy v.is_approved = false)
    (hcc : st.critique_count + 1 < 3) (fuel : Nat) :
    runLoop oracle gen (fuel + 1) st =
      (match runLoop oracle gen fuel
          (synthesis_node gen (revise_node (applyCritic st
            ⟨v.is_approved, st.critique_count + 1, some v.score, v.feedback⟩))) with
        | some (.ok (fin, c, mi)) => some (.ok (fin, c + 1, mi + 1))
        | r => r) := by
  have hcn : critic_node oracle st = .ok
      (⟨v.is_approved, st.critique_count + 1, some v.score, v.feedback⟩, true) := by
    unfold critic_node
    rw [if_neg (by omega), hcp]
  have hroute : route_after_critic (applyCritic st
      ⟨v.is_approved, st.critique_count + 1, some v.score, v.feedback⟩) = "revise" := by
    have hlt : ¬ (st.critique_count + 1 ≥ 3) := by omega
    simp [route_after_critic, applyCritic, hna, hlt]
  simp only [runLoop, hcn, hroute]
  simp

/-- The bounded iteration: the count reaches the bound, approval is forced
without invoking the model and the route is `answer`. -/
theorem runLoop_step_bound (oracle : AgentState → Except Unit Json)
    (gen : AgentState → String) {st : AgentState}
    (hcc : st.critique_count + 1 ≥ 3) (fuel : Nat) :
    runLoop oracle gen (fuel + 1) st = some (.ok (applyCritic st
      ⟨.bool true, st.critique_count + 1, none,
        "Auto-approved after maximum critique attempts."⟩, 1, 0)) := by
  have hcn : critic_node oracle st = .ok
      (⟨.bool true, st.critique_count + 1, none,
        "Auto-approved after maximum critique attempts."⟩, false) := by
    unfold critic_node
    rw [if_pos hcc]
  have hroute : route_after_critic (applyCritic st
      ⟨.bool true, st.critique_count + 1, none,
        "Auto-approved after maximum critique attempts."⟩) = "answer" := by
    simp [route_after_critic, applyCritic, pyTruthy]
  simp only [runLoop, hcn, hroute]
  simp

/-- Claim C4: with a critic model that always reports non-approval, the
loop reaches `answer` after exactly 3 critic-node invocations — never a
4th, whatever the available fuel — with the model invoked exactly twice;
approval is forced true at the bound without invoking the model, and the
fixed auto-approval feedback string is recorded. -/
theorem critic_loop_bound (oracle : AgentState → Except Unit Json)
    (gen : AgentState → String) (st : AgentState)
    (h : ∀ s, ∃ v, critic_parse (oracle s) = .ok v ∧ pyTruthy v.is_approved = false)
    (h0 : st.critique_count = 0) (extra : Nat) :
    ∃ fin, runLoop oracle gen (extra + 3) st = some (.ok (fin, 3, 2)) ∧
      fin.critique_feedback = "Auto-approved after maximum critique attempts." ∧
      fin.is_approved = Json.bool true ∧ fin.critique_count = 3 := by
  obtain ⟨v1, hv1, ha1⟩ := h st
  rw [show extra + 3 = (extra + 2) + 1 from rfl,
    runLoop_step_revise oracle gen hv1 ha1 (by omega) (extra + 2)]
  obtain ⟨v2, hv2, ha2⟩ := h (synthesis_node gen (revise_node (applyCritic st
    ⟨v1.is_approved, st.critique_count + 1, some v1.score, v1.feedback⟩)))
  have hc2 : (synthesis_node gen (revise_node (applyCritic st
      ⟨v1.is_approved, st.critique_count + 1, some v1.score, v1.feedback⟩))).critique_count
      = 1 := by
    rw [loop_next_count]
    simp [h0]
  rw [show extra + 2 = (extra + 1) + 1 from rfl,
    runLoop_step_revise oracle gen hv2 ha2 (by omega) (extra + 1)]
  obtain ⟨v3, hv3, ha3⟩ := h (synthesis_node gen (revise_node (applyCritic
    (synthesis_node gen (revise_node (applyCritic st
      ⟨v1.is_approved, st.critique_count + 1, some v1.score, v1.feedback⟩)))
    ⟨v2.is_approved, (synthesis_node gen (revise_node (applyCritic st
      ⟨v1.is_approved, st.critique_count + 1, some v1.score,
        v1.feedback⟩))).critique_count + 1, some v2.score, v2.feedback⟩)))
  have hc3 : (synthesis_node gen (revise_node (applyCritic
      (synthesis_node gen (revise_node (applyCritic st
        ⟨v1.is_approved, st.critique_count + 1, some v1.score, v1.feedback⟩)))
      ⟨v2.is_approved, (synthesis_node gen (revise_node (applyCritic st
        ⟨v1.is_approved, st.critique_count + 1, some v1.score,
          v1.feedback⟩))).critique_count + 1,
        some v2.score, v2.feedback⟩))).critique_count = 2 := by
    rw [loop_next_count]
    simp [hc2]
  rw [show extra + 1 = extra + 1 from rfl, runLoop_step_bound oracle gen (by omega) extra]
  refine ⟨_, rfl, rfl, rfl, ?_⟩
  simp only [applyCritic_count]
  rw [hc3]

/-- Claim C9: the answer node returns the draft as the final response and
an audit list containing crawl exactly when ingestion succeeded, research
exactly when research produced results, revise exactly when critique ran
more than once, always ending in synthesize. -/
theorem answer_node_audit (st : AgentState) :
    (answer_node st).1 = st.draft_response ∧
    ("crawl" ∈ (answer_node st).2 ↔ st.ingestion_status = some "success") ∧
    ("research" ∈ (answer_node st).2 ↔ st.research_results ≠ []) ∧
    ("revise" ∈ (answer_node st).2 ↔ st.critique_count > 1) ∧
    (answer_node st).2.getLast? = some "synthesize" := by
  unfold answer_node
  refine ⟨rfl, ?_, ?_, ?_, ?_⟩ <;>
  · by_cases h1 : st.ingestion_status = some "success" <;>
      by_cases h2 : st.research_results = [] <;>
        by_cases h3 : st.critique_count > 1 <;>
          simp [h1, h2, h3, List.getLast?_append]

/-! ### Remaining adapter theorems -/
/-- Structured-call branch of `normalize_tool_calls`: filter and strip. -/
theorem normalize_structured {msg : Msg} {valid : List (List Char)}
    (h : msg.tool_calls.getD [] ≠ []) :
    normalize_tool_calls msg valid =
      { msg with tool_calls := some (_filter_hallucinated (msg.tool_calls.getD []) valid),
                 content := some (_strip_think_tags (msg.content.getD [])) } := by
  unfold normalize_tool_calls normalize_tool_calls_patch
  simp only [ne_eq, h, not_false_eq_true, if_true, Option.getD_some]

/-- Without structured calls, the returned `tool_calls` entry is either the
input's own entry or the filter-mapped recovered list. -/
theorem normalize_unstructured_tc {msg : Msg} {valid : List (List Char)}
    (h : msg.tool_calls.getD [] = []) :
    (normalize_tool_calls msg valid).tool_calls = msg.tool_calls ∨
    ∃ parsed1 : List (List Char × List (List Char × List Char)),
      (normalize_tool_calls msg valid).tool_calls =
        some (parsed1.filterMap
          (fun c => if c.1 ∈ valid then some (⟨none, c⟩ : ProxyCall) else none)) ∧
      parsed1.filterMap
          (fun c => if c.1 ∈ valid then some (⟨none, c⟩ : ProxyCall) else none) ≠ [] := by
  unfold normalize_tool_calls normalize_tool_calls_patch
  simp only [ne_eq, h, not_true_eq_false, if_false]
  by_cases hc : msg.content.getD [] = []
  · simp [hc]
  · simp only [hc, not_false_eq_true, if_true]
    by_cases h1 : (_parse_xml_tool_calls (_strip_think_tags (msg.content.getD []))).1 = []
    · simp only [h1, not_true_eq_false, false_and, if_false]
      by_cases hth : _strip_think_tags (msg.content.getD []) = msg.content.getD []
      · simp [hth]
      · simp [hth]
    · by_cases h2 : (_parse_xml_tool_calls (_strip_think_tags (msg.content.getD []))).1.filterMap
          (fun c => if c.1 ∈ valid then some (⟨none, c⟩ : ProxyCall) else none) = []
      · simp only [h2, not_true_eq_false, and_false, if_false]
        by_cases hth : _strip_think_tags (msg.content.getD []) = msg.content.getD []
        · simp [hth]
        · simp [hth]
      · right
        refine ⟨(_parse_xml_tool_calls (_strip_think_tags (msg.content.getD []))).1, ?_, h2⟩
        simp [h1, h2]

/-- Claim C2 amended: for every raw message and every NON-EMPTY valid-name
set, every tool call surviving normalization — structured or recovered —
has its name in the set. -/
theorem surviving_names_valid (msg : Msg) (valid : List (List Char))
    (hv : valid ≠ []) (tcs : List ProxyCall)
    (h : (normalize_tool_calls msg valid).tool_calls = some tcs) :
    ∀ c ∈ tcs, c.function.1 ∈ valid := by
  intro c hc
  by_cases hstruct : msg.tool_calls.getD [] ≠ []
  · rw [normalize_structured hstruct] at h
    simp only [Msg.tool_calls] at h
    injection h with h'
    subst h'
    unfold _filter_hallucinated at hc
    rw [if_neg hv] at hc
    exact of_decide_eq_true (List.mem_filter.mp hc).2
  · push_neg at hstruct
    rcases @normalize_unstructured_tc msg valid hstruct with hsame | ⟨parsed1, hrec, _⟩
    · rw [h] at hsame
      cases hm : msg.tool_calls with
      | none => rw [hm] at hsame; exact absurd hsame (by simp)
      | some l =>
        rw [hm] at hsame hstruct
        simp only [Option.getD_some] at hstruct
        injection hsame with h'
        rw [h', hstruct] at hc
        exact absurd hc (by simp)
    · rw [h] at hrec
      injection hrec with h'
      rw [h'] at hc
      rcases List.mem_filterMap.mp hc with ⟨a, _, ha⟩
      by_cases hmem : a.1 ∈ valid
      · rw [if_pos hmem] at ha
        injection ha with ha'
        rw [← ha']
        exact hmem
      · rw [if_neg hmem] at ha
        exact absurd ha (by simp)

/-- Claim C3 amended: with an empty valid-name set the structured-call
filter is a no-op (every structured call survives unchanged), while calls
recovered from content require membership, so with an empty set none is
surfaced and the tool-call entry is left exactly as it was. -/
theorem empty_valid_set_behaviour (msg : Msg) :
    (∀ tcs, msg.tool_calls = some tcs → tcs ≠ [] →
      (normalize_tool_calls msg []).tool_calls = some tcs) ∧
    (msg.tool_calls.getD [] = [] →
      (normalize_tool_calls msg []).tool_calls = msg.tool_calls) := by
  constructor
  · intro tcs hm hne
    have hget : msg.tool_calls.getD [] = tcs := by rw [hm]; rfl
    rw [normalize_structured (by rw [hget]; exact hne)]
    simp only [Msg.tool_calls]
    rw [hget]
    unfold _filter_hallucinated
    rw [if_pos rfl]
  · intro h
    rcases @normalize_unstructured_tc msg [] h with hsame | ⟨parsed1, _, hne⟩
    · exact hsame
    · exfalso
      apply hne
      induction parsed1 with
      | nil => rfl
      | cons a as ih => simpa [List.filterMap_cons] using ih

/-- Claim C10: normalization never mutates the input message dict. In the
heap model every pre-existing address keeps its value, the value at the
returned address is the normalized message, and the returned address is
either the input itself — in which case the message is unchanged — or a
freshly allocated shallow copy one past the end of the old heap. -/
theorem normalize_no_mutation (h : List Msg) (a : Nat) (valid : List (List Char))
    (msg : Msg) (hm : h.get? a = some msg) :
    (∀ i, i < h.length → (normalize_heap h a valid).1.get? i = h.get? i) ∧
    (normalize_heap h a valid).1.get? (normalize_heap h a valid).2 =
      some (normalize_tool_calls msg valid) ∧
    ((normalize_heap h a valid).2 = a ∧ (normalize_heap h a valid).1 = h ∧
        normalize_tool_calls msg valid = msg ∨
      (normalize_heap h a valid).2 = h.length ∧
        (normalize_heap h a valid).1 = h ++ [normalize_tool_calls msg valid]) := by
  have heq : normalize_heap h a valid =
      (match normalize_tool_calls_patch msg valid with
        | some r => (h ++ [r], h.length)
        | none => (h, a)) := by
    unfold normalize_heap
    rw [hm]
  rw [heq]
  cases hp : normalize_tool_calls_patch msg valid with
  | none =>
    have hnorm : normalize_tool_calls msg valid = msg := by
      unfold normalize_tool_calls
      rw [hp]
      rfl
    refine ⟨fun i _ => rfl, ?_, Or.inl ⟨rfl, rfl, hnorm⟩⟩
    rw [hnorm]
    exact hm
  | some r =>
    have hnorm : normalize_tool_calls msg valid = r := by
      unfold normalize_tool_calls
      rw [hp]
      rfl
    refine ⟨?_, ?_, Or.inr ⟨rfl, by rw [hnorm]⟩⟩
    · intro i hi
      exact List.get?_append hi
    · rw [hnorm]
      exact List.get?_concat_length h r

theorem recoverWithIds_get? (l : List (List Char × List (List Char × List Char))) :
    ∀ i k, (recoverWithIds i l).get? k =
      (l.get? k).map (fun c =>
        (⟨c.1, c.2, "recovered_".toList ++ (Nat.repr (i + k)).toList⟩ : AgentCall)) := by
  induction l with
  | nil =>
    intro i k
    simp [recoverWithIds]
  | cons c cs ih =>
    intro i k
    cases k with
    | zero => simp [recoverWithIds]
    | succ k =>
      simp only [recoverWithIds, List.get?_cons_succ]
      rw [ih (i + 1) k, show i + 1 + k = i + (k + 1) from by omega]

/-- Content-recovery branch of `normalize_ai_message`. -/
theorem normalize_ai_message_recovered {content : List Char}
    (hne : content ≠ [])
    (hp : (_parse_xml_tool_calls (_strip_think_tags content)).1 ≠ []) :
    normalize_ai_message ⟨content, []⟩ =
      ⟨(_parse_xml_tool_calls (_strip_think_tags content)).2,
        recoverWithIds 0 (_parse_xml_tool_calls (_strip_think_tags content)).1⟩ := by
  unfold normalize_ai_message
  simp only [ne_eq, not_true_eq_false, if_false, hne, hp, not_false_eq_true, if_true]

/-- Claim C8 amended: recovered calls get a locally generated id only on
the agent path — `normalize_ai_message` assigns `recovered_<position>` to
the call at each position — while on the proxy path
(`normalize_tool_calls`) recovered entries carry no id entry at all. -/
theorem recovered_id_assignment :
    (∀ content : List Char, content ≠ [] →
      (_parse_xml_tool_calls (_strip_think_tags content)).1 ≠ [] →
      ∀ k : Nat, (normalize_ai_message ⟨content, []⟩).tool_calls.get? k =
        ((_parse_xml_tool_calls (_strip_think_tags content)).1.get? k).map
          (fun c => (⟨c.1, c.2,
            "recovered_".toList ++ (Nat.repr k).toList⟩ : AgentCall))) ∧
    (∀ (msg : Msg) (valid : List (List Char)) (l : List ProxyCall),
      msg.tool_calls = none →
      (normalize_tool_calls msg valid).tool_calls = some l →
      ∀ c ∈ l, c.id = none) := by
  constructor
  · intro content hne hp k
    rw [normalize_ai_message_recovered hne hp]
    have := recoverWithIds_get? (_parse_xml_tool_calls (_strip_think_tags content)).1 0 k
    simpa using this
  · intro msg valid l hnone h c hc
    have hget : msg.tool_calls.getD [] = [] := by rw [hnone]; rfl
    rcases @normalize_unstructured_tc msg valid hget with hsame | ⟨parsed1, hrec, _⟩
    · rw [h, hnone] at hsame
      exact absurd hsame (by simp)
    · rw [h] at hrec
      injection hrec with h'
      rw [h'] at hc
      rcases List.mem_filterMap.mp hc with ⟨a, _, ha⟩
      by_cases hmem : a.1 ∈ valid
      · rw [if_pos hmem] at ha
        injection ha with ha'
        rw [← ha']
      · rw [if_neg hmem] at ha
        exact absurd ha (by simp)

/-! ### Interpreter theorems -/
/-- Claim C7 counterexample: a decoded classification object whose
confidence is JSON null makes `float(None)` raise a TypeError that the
interpreter node's `except (json.JSONDecodeError, ValueError)` does not
catch: the node raises instead of defaulting. -/
theorem interpreter_null_confidence_raises :
    interpreter_parse (.ok (.obj [("confidence", Json.null)])) =
      .error PyExn.typeError := rfl

/-- Claim C7 amended: a JSON decode failure resolves to the default
classification (question, 0.5, no entities, no URL), and a decoded object
whose confidence entry is absent or numeric never raises; but a
confidence of a non-numeric JSON type (such as null) raises an uncaught
TypeError, and out-of-range intent or confidence values are carried
through unvalidated rather than defaulted. -/
theorem interpreter_malformed_defaults (resp : Except Unit Json) :
    (resp = .error () → interpreter_parse resp =
      .ok ⟨.str "question", 1/2, .arr [], .null⟩) ∧
    (∀ kvs, resp = .ok (.obj kvs) →
      (pyLookup kvs "confidence" = none ∨
        ∃ q, pyLookup kvs "confidence" = some (.num q)) →
      ∃ c, interpreter_parse resp = .ok c ∧
        c.intent_type = (pyLookup kvs "intent").getD (.str "question")) := by
  constructor
  · rintro rfl
    rfl
  · rintro kvs rfl hconf
    rcases hconf with hnone | ⟨q, hq⟩
    · refine ⟨⟨(pyLookup kvs "intent").getD (.str "question"), 1/2,
        (pyLookup kvs "entities").getD (.arr []),
        (pyLookup kvs "inferred_url").getD .null⟩, ?_, rfl⟩
      simp [interpreter_parse, hnone, pyFloatJ]
    · refine ⟨⟨(pyLookup kvs "intent").getD (.str "question"), q,
        (pyLookup kvs "entities").getD (.arr []),
        (pyLookup kvs "inferred_url").getD .null⟩, ?_, rfl⟩
      simp [interpreter_parse, hq, pyFloatJ]

theorem hermes_recovery_exact_witness : WFsegs c1segs ∧
    normalize_tool_calls c1msg c1valid =
      { c1msg with
        tool_calls := some (c1segs.map (fun s => (⟨none,
          (pyStrip s.2.name,
            pyDict (s.2.params.map (fun p => (pyStrip p.key, p.value))))⟩ : ProxyCall))),
        content := some (pyStrip (proseConcat c1segs c1last)) } :=
  ⟨by decide, hermes_recovery_exact c1msg c1valid c1segs c1last rfl rfl (by decide)
    (by decide) (by decide) (by decide) (by decide)⟩

/-- Claim C2 counterexample: with an EMPTY valid-name set a structured
call with a fabricated name survives normalization — the surviving
tool-call list is non-empty and its entry's name belongs to no valid-name
set — refuting the claimed invariant as stated for every set. -/
theorem empty_set_invariant_fails :
    (normalize_tool_calls c2msg []).tool_calls =
      some [⟨none, ("ghost_tool".toList, [])⟩] ∧
    ¬ ("ghost_tool".toList ∈ ([] : List (List Char))) :=
  ⟨rfl, by simp⟩

theorem surviving_names_valid_witness :
    (["web_search".toList] : List (List Char)) ≠ [] ∧
    ∀ c ∈ [(⟨none, ("web_search".toList, [])⟩ : ProxyCall)],
      c.function.1 ∈ [("web_search".toList)] :=
  ⟨by decide, surviving_names_valid c2wmsg ["web_search".toList] (by decide)
    [⟨none, ("web_search".toList, [])⟩] rfl⟩

/-- Claim C3 counterexample: with an empty valid-name set a call recovered
from content does NOT survive: the content parses to exactly one call, yet
the normalized message carries no tool calls at all. -/
theorem empty_set_drops_recovered :
    (_parse_xml_tool_calls (_strip_think_tags (c3msg.content.getD []))).1 =
      [("t1".toList, [("a".toList, "1".toList)])] ∧
    (normalize_tool_calls c3msg []).tool_calls = none :=
  ⟨rfl, rfl⟩

theorem empty_valid_set_behaviour_witness :
    (normalize_tool_calls c3wmsg []).tool_calls =
      some [⟨none, ("anything".toList, [])⟩] ∧
    (normalize_tool_calls c3wmsg2 []).tool_calls = c3wmsg2.tool_calls :=
  ⟨(empty_valid_set_behaviour c3wmsg).1 [⟨none, ("anything".toList, [])⟩] rfl (by decide),
    (empty_valid_set_behaviour c3wmsg2).2 rfl⟩

theorem critic_loop_bound_witness :
    ∃ fin, runLoop critic_oracle_denies gen_const 3 {} = some (.ok (fin, 3, 2)) ∧
      fin.critique_feedback = "Auto-approved after maximum critique attempts." ∧
      fin.is_approved = Json.bool true ∧ fin.critique_count = 3 :=
  critic_loop_bound critic_oracle_denies gen_const {}
    (fun _ => ⟨⟨.bool false, 4/5, ""⟩, rfl, rfl⟩) rfl 0

theorem goosefilter_fence_passthrough_witness :
    (leadsWith fenceMark (pyStrip "  ```py".toList) = true ∧
      transformLine (fun l => l) false "  ```py".toList = ("  ```py".toList, true)) ∧
    (transformLine (fun _ => []) true "**bold**".toList).1 = "**bold**".toList :=
  ⟨⟨by decide,
      (goosefilter_fence_passthrough (fun l => l) false "  ```py".toList).1 (by decide)⟩,
    (goosefilter_fence_passthrough (fun _ => []) true "**bold**".toList).2 rfl⟩

theorem interpreter_malformed_defaults_witness :
    interpreter_parse (.error ()) = .ok ⟨.str "question", 1/2, .arr [], .null⟩ ∧
    ∃ c, interpreter_parse (.ok (.obj [])) = .ok c ∧
      c.intent_type = (pyLookup [] "intent").getD (.str "question") :=
  ⟨(interpreter_malformed_defaults (.error ())).1 rfl,
    (interpreter_malformed_defaults (.ok (.obj []))).2 [] rfl (Or.inl rfl)⟩

/-- Claim C8 counterexample: on the proxy path a recovered call carries no
id entry at all (`id = none`), so recovered calls are NOT given a locally
generated id on this normalization path. -/
theorem proxy_recovered_has_no_id :
    ((normalize_tool_calls c8msg ["t2".toList]).tool_calls.getD []).map
      (fun c => c.id) = [none] := rfl

theorem recovered_id_assignment_witness :
    (normalize_ai_message ⟨c8content, []⟩).tool_calls.get? 0 =
      some ⟨"t3".toList, [], "recovered_0".toList⟩ ∧
    ∀ c ∈ [(⟨none, ("t2".toList, [("b".toList, "2".toList)])⟩ : ProxyCall)],
      c.id = none := by
  constructor
  · rw [recovered_id_assignment.1 c8content (by decide) (by decide) 0]
    rfl
  · exact recovered_id_assignment.2 c8msg ["t2".toList]
      [⟨none, ("t2".toList, [("b".toList, "2".toList)])⟩] rfl rfl

theorem normalize_no_mutation_witness :
    c10heap.get? 0 = some c10msg ∧
    ((∀ i, i < c10heap.length →
        (normalize_heap c10heap 0 []).1.get? i = c10heap.get? i) ∧
      (normalize_heap c10heap 0 []).1.get? (normalize_heap c10heap 0 []).2 =
        some (normalize_tool_calls c10msg []) ∧
      ((normalize_heap c10heap 0 []).2 = 0 ∧ (normalize_heap c10heap 0 []).1 = c10heap ∧
          normalize_tool_calls c10msg [] = c10msg ∨
        (normalize_heap c10heap 0 []).2 = c10heap.length ∧
          (normalize_heap c10heap 0 []).1 = c10heap ++ [normalize_tool_calls c10msg []])) :=
  ⟨rfl, normalize_no_mutation c10heap 0 [] c10msg rfl⟩

end Aiagent
